import Mathlib

/-!
# libmachine: the RancherOS provisioner and the file store

A shallow embedding of `libmachine/provision/rancheros.go` and
`libmachine/persist/filestore.go`.

* Remote command execution is an explicit trace of command strings together
  with a remote host that answers each command.
* The file system is an explicit finite map from paths to nodes; every store
  operation is a function on that map.
-/

set_option autoImplicit false

namespace provision

/-! ## Remote command execution -/

/-- What one remote command returns: its output and, on failure, an error. -/
structure CmdResult where
  output : String
  err : Option String
  deriving DecidableEq, Repr

/-- The remote host. Its answer to a command may depend on every command
issued before it (first argument) and on the command itself. -/
abbrev Remote := List String → String → CmdResult

/-- Modelled from the spec: `SSHCommand` of the embedded `GenericSSHCommander`
(not among the sources) is the command-execution capability
`run(commandString) -> (output, error)`: the command is sent to the remote
host, which is recorded by appending it to the trace. -/
def SSHCommand (r : Remote) (command : String) (trace : List String) :
    CmdResult × List String :=
  (r trace command, trace ++ [command])

/-- Package `pkgaction`: the closed enumeration of package actions. -/
inductive PackageAction
  | Install
  | Remove
  | Upgrade
  deriving DecidableEq, Repr

/-- The fields of `engine.Options` read by the provisioner. -/
structure EngineOptions where
  InstallURL : String
  StorageDriver : String
  deriving DecidableEq, Repr

/-- The errors a provisioner call returns. -/
inductive ProvisionError
  /-- Embeds `fmt.Errorf("Unsupported storage driver: %s", d)` -/
  | unsupportedStorageDriver (driver : String)
  /-- The error of a failed remote command, returned unchanged. -/
  | ssh (msg : String)
  /-- Embeds `fmt.Errorf("error selecting docker: (%s) %s", err, output)` -/
  | selectingDocker (msg : String) (output : String)
  deriving DecidableEq, Repr

/-- The state of a `RancherProvisioner` that the embedded functions read:
the driver's machine name, the declared packages and the stored engine
options, together with the two parts that are not among the sources
(`drivers.DefaultEngineInstallURL` and the body of
`GenericProvisioner.SetHostname`), taken as parameters. -/
structure RancherProvisioner where
  /-- Embeds `provisioner.Driver.GetMachineName()` -/
  machineName : String
  /-- Embeds `provisioner.Packages` -/
  Packages : List String
  /-- Embeds `provisioner.EngineOptions` -/
  EngineOptions : EngineOptions
  /-- Embeds `drivers.DefaultEngineInstallURL` -/
  DefaultEngineInstallURL : String
  /-- The remote commands of the shared hostname routine, see
  `genericSetHostname`. -/
  genericHostnameCmds : String → List String

/-- What a provisioner call leaves behind: the returned error (`none` is
Go's `nil`), the provisioner state and the trace of remote commands. -/
structure Outcome where
  err : Option ProvisionError
  prov : RancherProvisioner
  trace : List String

/-- Issue the commands one after the other; the first failing command ends
the sequence and its error is returned. -/
def runCmds (r : Remote) : List String → List String → Option String × List String
  | [], trace => (none, trace)
  | c :: cs, trace =>
    match (SSHCommand r c trace).1.err with
    | some e => (some e, (SSHCommand r c trace).2)
    | none => runCmds r cs (SSHCommand r c trace).2

/-- Modelled from the spec: `GenericProvisioner.SetHostname` (the "shared
hostname routine"; `generic.go` is not among the sources). The spec only
says that the variant delegates to it and that command failures propagate,
so it is the fail-fast run of a command list that depends on the hostname. -/
def genericSetHostname (p : RancherProvisioner) (r : Remote) (hostname : String)
    (trace : List String) : Option ProvisionError × List String :=
  match runCmds r (p.genericHostnameCmds hostname) trace with
  | (some e, t) => (some (.ssh e), t)
  | (none, t) => (none, t)

/-- The constant `hostnameTmpl` with `%s` replaced by the hostname. -/
def hostnameTmpl (hostname : String) : String :=
  "sudo mkdir -p /var/lib/rancher/conf/cloud-config.d/  \n" ++
  "sudo tee /var/lib/rancher/conf/cloud-config.d/machine-hostname.yml << EOF\n" ++
  "#cloud-config\n\nhostname: " ++ hostname ++ "\nEOF\n"

/-- The command that strips the loopback-hostname line from `/etc/hosts`. -/
def stripHostsCmd : String :=
  "sed /127.0.1.1/d /etc/hosts > /tmp/hosts && cat /tmp/hosts | sudo tee /etc/hosts"

/-- The command `upgrade` sends first. -/
def upgradeCmd : String := "sudo rancherctl os upgrade -f --no-reboot"

/-- The command `upgrade` sends second. -/
def rebootCmd : String := "sudo reboot"

/-- Embeds `fmt.Sprintf("sudo rancherctl service %s %s", packageAction, name)` -/
def serviceCmd (packageAction name : String) : String :=
  "sudo rancherctl service " ++ packageAction ++ " " ++ name

/-- Embeds `fmt.Sprintf("wget -O- %s | sh -", baseURL)` -/
def wgetCmd (baseURL : String) : String :=
  "wget -O- " ++ baseURL ++ " | sh -"

/-- Embeds `RancherProvisioner.upgrade`: the upgrade command, then the reboot
command whose result is dropped. -/
def upgrade (r : Remote) (trace : List String) : Option ProvisionError × List String :=
  match (SSHCommand r upgradeCmd trace).1.err with
  | some e => (some (.ssh e), (SSHCommand r upgradeCmd trace).2)
  | none => (none, (SSHCommand r rebootCmd (SSHCommand r upgradeCmd trace).2).2)

/-- The `switch action` of `RancherProvisioner.Package`. -/
def packageAction : PackageAction → String
  | .Install => "enabled"
  | .Remove => "disable"
  | .Upgrade => "upgrade"

/-- Embeds `RancherProvisioner.Package`. -/
def Package (r : Remote) (name : String) (action : PackageAction) (trace : List String) :
    Option ProvisionError × List String :=
  if name = "docker" ∧ action = .Upgrade then
    upgrade r trace
  else
    match (SSHCommand r (serviceCmd (packageAction action) name) trace).1.err with
    | some e => (some (.ssh e), (SSHCommand r (serviceCmd (packageAction action) name) trace).2)
    | none => (none, (SSHCommand r (serviceCmd (packageAction action) name) trace).2)

/-- Embeds `RancherProvisioner.SetHostname`. -/
def SetHostname (p : RancherProvisioner) (r : Remote) (hostname : String)
    (trace : List String) : Option ProvisionError × List String :=
  match (SSHCommand r stripHostsCmd trace).1.err with
  | some e => (some (.ssh e), (SSHCommand r stripHostsCmd trace).2)
  | none =>
    match genericSetHostname p r hostname (SSHCommand r stripHostsCmd trace).2 with
    | (some e, t2) => (some e, t2)
    | (none, t2) =>
      match (SSHCommand r (hostnameTmpl hostname) t2).1.err with
      | some e => (some (.ssh e), (SSHCommand r (hostnameTmpl hostname) t2).2)
      | none => (none, (SSHCommand r (hostnameTmpl hostname) t2).2)

/-- Embeds `selectDocker`. -/
def selectDocker (r : Remote) (baseURL : String) (trace : List String) :
    Option ProvisionError × List String :=
  match (SSHCommand r (wgetCmd baseURL) trace).1.err with
  | some e =>
    (some (.selectingDocker e (SSHCommand r (wgetCmd baseURL) trace).1.output),
      (SSHCommand r (wgetCmd baseURL) trace).2)
  | none => (none, (SSHCommand r (wgetCmd baseURL) trace).2)

/-- The loop `for _, pkg := range provisioner.Packages` of `Provision`. -/
def installPackages (r : Remote) : List String → List String →
    Option ProvisionError × List String
  | [], trace => (none, trace)
  | pkg :: rest, trace =>
    match Package r pkg .Install trace with
    | (some e, t) => (some e, t)
    | (none, t) => installPackages r rest t

/-- Lines 96-115 of `Provision`: the hostname, the declared packages, the
engine source. -/
def provisionSteps (p : RancherProvisioner) (r : Remote) (engineOptions : EngineOptions)
    (trace : List String) : Option ProvisionError × List String :=
  match SetHostname p r p.machineName trace with
  | (some e, t1) => (some e, t1)
  | (none, t1) =>
    match installPackages r p.Packages t1 with
    | (some e, t2) => (some e, t2)
    | (none, t2) =>
      if engineOptions.InstallURL ≠ p.DefaultEngineInstallURL then
        selectDocker r engineOptions.InstallURL t2
      else (none, t2)

/-- Embeds `RancherProvisioner.Provision`. -/
def Provision (p : RancherProvisioner) (r : Remote) (engineOptions : EngineOptions)
    (trace : List String) : Outcome :=
  let p1 : RancherProvisioner := { p with EngineOptions := engineOptions }
  if p1.EngineOptions.StorageDriver = "" then
    let p2 : RancherProvisioner :=
      { p1 with EngineOptions := { p1.EngineOptions with StorageDriver := "overlay" } }
    ⟨(provisionSteps p2 r engineOptions trace).1, p2, (provisionSteps p2 r engineOptions trace).2⟩
  else if p1.EngineOptions.StorageDriver ≠ "overlay" then
    ⟨some (.unsupportedStorageDriver p1.EngineOptions.StorageDriver), p1, trace⟩
  else
    ⟨(provisionSteps p1 r engineOptions trace).1, p1, (provisionSteps p1 r engineOptions trace).2⟩

/-- The commands of one `SetHostname` call, in the order they are sent. -/
def setHostnameCmds (p : RancherProvisioner) (hostname : String) : List String :=
  [stripHostsCmd] ++ p.genericHostnameCmds hostname ++ [hostnameTmpl hostname]

/-- The commands of lines 96-115 of `Provision`, in the order they are sent
when none fails. -/
def provisionCmds (p : RancherProvisioner) (engineOptions : EngineOptions) : List String :=
  setHostnameCmds p p.machineName ++
    p.Packages.map (fun pkg => serviceCmd (packageAction .Install) pkg) ++
    (if engineOptions.InstallURL ≠ p.DefaultEngineInstallURL then
      [wgetCmd engineOptions.InstallURL] else [])

/-- A call's result with the error reduced to whether there is one. -/
def failed {ε : Type} (res : Option ε × List String) : Bool × List String :=
  (res.1.isSome, res.2)

/-! ## Sample sessions -/

/-- A provisioner for the machine `dev` with two declared packages. -/
def sampleProvisioner : RancherProvisioner where
  machineName := "dev"
  Packages := ["mysql", "redis"]
  EngineOptions := ⟨"", ""⟩
  DefaultEngineInstallURL := "https://get.docker.com"
  genericHostnameCmds := fun hostname => ["sudo hostname " ++ hostname]

/-- A remote host on which every command succeeds. -/
def okRemote : Remote := fun _ _ => ⟨"", none⟩

/-- A remote host on which exactly the given command fails. -/
def failingOn (bad : String) : Remote :=
  fun _ command => if command = bad then ⟨"", some "exit status 1"⟩ else ⟨"", none⟩

end provision

namespace persist

/-! ## The file system -/

/-- A cleaned absolute path, as the list of its components from the root. -/
abbrev PathName := List String

/-- The error numbers of the file-system calls that the store can see. -/
inductive Errno
  | ENOENT
  | ENOTDIR
  | EISDIR
  | EEXIST
  | ENOTEMPTY
  | EINVAL
  | EBUSY
  | ENAMETOOLONG
  deriving DecidableEq, Repr

/-- A directory, or a regular file with its content. -/
inductive Node
  | dir
  | file (data : String)
  deriving DecidableEq, Repr

/-- The file system: a finite map from paths to nodes (the first entry of a
path counts). The root `[]` is always a directory. -/
abbrev FS := List (PathName × Node)

/-- The entry stored for a path. -/
def entryAt : FS → PathName → Option Node
  | [], _ => none
  | (q, n) :: rest, p => if q = p then some n else entryAt rest p

/-- The node at a path, the root being a directory. -/
def nodeAt (fs : FS) (p : PathName) : Option Node :=
  if p = [] then some .dir else entryAt fs p

/-- The longest file name, in bytes, that a directory takes. -/
def NAME_MAX : Nat := 255

/-- The length, in bytes and with the closing zero byte, from which on a
path is too long for a system call. -/
def PATH_MAX : Nat := 4096

/-- The length in bytes of the path as a string, `/c1/c2/...`. -/
def pathBytes (p : PathName) : Nat := (p.map (fun c => c.utf8ByteSize + 1)).sum

/-- Whether a component of the path holds a zero byte. -/
def hasNul (p : PathName) : Bool := p.any (fun c => c.data.contains (Char.ofNat 0))

/-- Whether a file name is longer than a directory takes. -/
def tooLong (c : String) : Bool := decide (NAME_MAX < c.utf8ByteSize)

/-- The errors a path meets before it is resolved: `EINVAL` for a zero byte
(the path cannot be passed to the system call), `ENAMETOOLONG` for a path
of `PATH_MAX` bytes or more. -/
def pathErr (p : PathName) : Option Errno :=
  if hasNul p then some .EINVAL
  else if PATH_MAX ≤ pathBytes p then some .ENAMETOOLONG
  else none

/-- Resolution of a path from the directory `cur` along the components
`rest`: a component is looked up in a directory only, and a name longer than
`NAME_MAX` is refused by the directory. -/
def resolve (fs : FS) : PathName → List String → Except Errno Node
  | cur, [] =>
    match nodeAt fs cur with
    | some n => .ok n
    | none => .error .ENOENT
  | cur, c :: rest =>
    match nodeAt fs cur with
    | some .dir => if tooLong c then .error .ENAMETOOLONG else resolve fs (cur ++ [c]) rest
    | some (.file _) => .error .ENOTDIR
    | none => .error .ENOENT

/-- Embeds `os.Stat`: the node a path resolves to; `EINVAL` or `ENAMETOOLONG` for a
path that no system call takes, `ENOENT` when a component is missing,
`ENOTDIR` when a component before the last is a regular file,
`ENAMETOOLONG` when a component looked up in a directory is too long. -/
def Stat (fs : FS) (p : PathName) : Except Errno Node :=
  match pathErr p with
  | some e => .error e
  | none => resolve fs [] p

deriving instance DecidableEq for Except

/-- Embeds `os.IsNotExist`. -/
def IsNotExist (e : Errno) : Bool := e = .ENOENT

/-- Drop the entry of a path. -/
def erase (fs : FS) (p : PathName) : FS := fs.filter (fun e => e.1 ≠ p)

/-- Replace the entry of a path. -/
def put (fs : FS) (p : PathName) (n : Node) : FS := (p, n) :: erase fs p

/-- Whether a path has an entry strictly below it. -/
def hasChild (fs : FS) (p : PathName) : Bool :=
  fs.any (fun e => decide (p <+: e.1 ∧ e.1 ≠ p))

/-- Whether the last component of a path is too long for a directory. -/
def lastTooLong (p : PathName) : Bool :=
  match p.getLast? with
  | some c => tooLong c
  | none => false

/-- What a call that creates or replaces the last component of a path
checks first: the path is one a system call takes, the directory of the
path resolves to a directory, and the name fits. -/
def parentDir (fs : FS) (p : PathName) : Except Errno Unit :=
  match pathErr p with
  | some e => .error e
  | none =>
    match Stat fs p.dropLast with
    | .error e => .error e
    | .ok (.file _) => .error .ENOTDIR
    | .ok .dir => if lastTooLong p then .error .ENAMETOOLONG else .ok ()

/-- Embeds `os.MkdirAll` from the directory `cur` along `rest`: the directories
are visited from the root down; a missing one is created, a regular file in
its place is `ENOTDIR`, and a name the file system refuses ends the call
with the directories above it created. -/
def mkdirFrom : FS → PathName → List String → Option Errno × FS
  | fs, _, [] => (none, fs)
  | fs, cur, c :: rest =>
    match parentDir fs (cur ++ [c]) with
    | .error e => (some e, fs)
    | .ok () =>
      match nodeAt fs (cur ++ [c]) with
      | some .dir => mkdirFrom fs (cur ++ [c]) rest
      | some (.file _) => (some .ENOTDIR, fs)
      | none => mkdirFrom (put fs (cur ++ [c]) .dir) (cur ++ [c]) rest

/-- Embeds `os.MkdirAll`: nothing to do when the path is a directory, `ENOTDIR`
when it or a component of it is a regular file, and otherwise the missing
directories are created from the root down, as far as their names are
accepted. -/
def MkdirAll (p : PathName) (fs : FS) : Option Errno × FS := mkdirFrom fs [] p

/-- Embeds `os.OpenFile(name, O_WRONLY|O_CREATE|O_TRUNC, perm)`: the file exists and
is empty afterwards. -/
def openTrunc (p : PathName) (fs : FS) : Except Errno FS :=
  match parentDir fs p with
  | .error e => .error e
  | .ok () =>
    match nodeAt fs p with
    | some .dir => .error .EISDIR
    | _ => .ok (put fs p (.file ""))

/-- A run of file-system operations: the returned error (`none` is `nil`),
the file system it leaves, and the file system as it was after each
operation that writes to it, oldest first. -/
structure Run where
  err : Option Errno
  fs : FS
  seen : List FS
  deriving DecidableEq

/-- Embeds `ioutil.WriteFile`: open with truncation, write the data, close. -/
def WriteFile (p : PathName) (data : String) (fs : FS) : Run :=
  match openTrunc p fs with
  | .error e => ⟨some e, fs, []⟩
  | .ok fs1 => ⟨none, put fs1 p (.file data), [fs1, put fs1 p (.file data)]⟩

/-- Embeds `ioutil.TempFile(dir, prefix)`: the name is the prefix followed by a
random string; a name that exists is skipped and the next one drawn
(`cands` are the draws); the file is created empty and exclusively. -/
def TempFile (dir : PathName) (pre : String) : List String → FS → Except Errno (PathName × FS)
  | [], _ => .error .EEXIST
  | s :: rest, fs =>
    match parentDir fs (dir ++ [pre ++ s]) with
    | .error e => .error e
    | .ok () =>
      match nodeAt fs (dir ++ [pre ++ s]) with
      | some _ => TempFile dir pre rest fs
      | none => .ok (dir ++ [pre ++ s], put fs (dir ++ [pre ++ s]) (.file ""))

/-- Embeds `os.Remove`: a regular file or an empty directory. -/
def Remove (p : PathName) (fs : FS) : Except Errno FS :=
  match Stat fs p with
  | .error e => .error e
  | .ok (.file _) => .ok (erase fs p)
  | .ok .dir =>
    if p = [] then .error .EBUSY
    else if hasChild fs p then .error .ENOTEMPTY
    else .ok (erase fs p)

/-- Embeds `os.Rename`: a regular file replaces a regular file at the destination in
one step; a directory moves with everything below it onto a free name or an
empty directory. -/
def Rename (old new : PathName) (fs : FS) : Except Errno FS :=
  match Stat fs old with
  | .error e => .error e
  | .ok (.file d) =>
    match parentDir fs new with
    | .error e => .error e
    | .ok () =>
      match nodeAt fs new with
      | some .dir => .error .EISDIR
      | _ => .ok (put (erase fs old) new (.file d))
  | .ok .dir =>
    if old = [] then .error .EBUSY
    else if old = new then .ok fs
    else if old <+: new then .error .EINVAL
    else
      match parentDir fs new with
      | .error e => .error e
      | .ok () =>
        match nodeAt fs new with
        | some (.file _) => .error .ENOTDIR
        | some .dir =>
          if hasChild fs new then .error .ENOTEMPTY
          else .ok ((erase fs new).map
            (fun e => if old <+: e.1 then (new ++ e.1.drop old.length, e.2) else e))
        | none => .ok ((erase fs new).map
            (fun e => if old <+: e.1 then (new ++ e.1.drop old.length, e.2) else e))

/-- Embeds `os.RemoveAll`: the path and everything below it; a path that does not
exist is not an error, any other failure to resolve the path is returned. -/
def RemoveAll (p : PathName) (fs : FS) : Option Errno × FS :=
  if p = [] then (some .EBUSY, [])
  else
    match Stat fs p with
    | .ok _ => (none, fs.filter (fun e => ¬ p <+: e.1))
    | .error e => if IsNotExist e then (none, fs) else (some e, fs)

/-- Embeds `ioutil.ReadFile`. -/
def ReadFile (p : PathName) (fs : FS) : Except Errno String :=
  match Stat fs p with
  | .error e => .error e
  | .ok .dir => .error .EISDIR
  | .ok (.file d) => .ok d

/-- The part of `os.FileInfo` that `List` reads. -/
structure FileInfo where
  Name : String
  IsDir : Bool
  deriving DecidableEq, Repr

/-- Byte-wise order of file names. -/
def lessName : List Char → List Char → Bool
  | [], [] => false
  | [], _ :: _ => true
  | _ :: _, [] => false
  | a :: as, b :: bs =>
    decide (a.toNat < b.toNat) || (decide (a.toNat = b.toNat) && lessName as bs)

/-- The names of the entries directly in a directory, each once, sorted. -/
def childNames (fs : FS) (dir : PathName) : List String :=
  ((fs.filterMap (fun e => if e.1.dropLast = dir then e.1.getLast? else none)).dedup).insertionSort
    (fun a b => lessName b.data a.data = false)

/-- Embeds `ioutil.ReadDir`: the entries of a directory sorted by file name, each
with what `Lstat` finds for it; a name that does not resolve is no entry. -/
def ReadDir (dir : PathName) (fs : FS) : Except Errno (List FileInfo) :=
  match Stat fs dir with
  | .error e => .error e
  | .ok (.file _) => .error .ENOTDIR
  | .ok .dir =>
    .ok ((childNames fs dir).filterMap (fun c =>
      match Stat fs (dir ++ [c]) with
      | .ok n => some ⟨c, decide (n = .dir)⟩
      | .error _ => none))

/-- Embeds `strings.HasPrefix`. -/
def HasPrefix (s pre : String) : Bool := pre.data.isPrefixOf s.data

/-- Split at every `/`. -/
def splitSlash : List Char → List (List Char)
  | [] => [[]]
  | c :: cs =>
    if c = '/' then [] :: splitSlash cs
    else
      match splitSlash cs with
      | [] => [[c]]
      | w :: ws => (c :: w) :: ws

/-- One component of `filepath.Clean` on an absolute path: empty and `.`
components vanish, `..` drops the component before it. -/
def cleanStep (p : PathName) (c : String) : PathName :=
  if c = "" ∨ c = "." then p
  else if c = ".." then p.dropLast
  else p ++ [c]

/-- Embeds `filepath.Join(dir, elem)` for a cleaned absolute `dir`: the cleaned
path of `dir/elem`. -/
def filepathJoin (dir : PathName) (elem : String) : PathName :=
  ((splitSlash elem.data).map String.mk).foldl cleanStep dir

/-! ## The host record and its document -/

/-- Modelled from the spec: `host.Host` (package `host` is not among the
sources) is a record with the identity `Name` and an opaque structured
configuration payload. -/
structure Host (δ : Type) where
  Name : String
  Payload : δ
  deriving DecidableEq

/-- The two functions of `encoding/json` that the store calls on a host
record, and the zero value of the payload (`&host.Host{Name: name}` has a
zero payload). `Unmarshal` decodes into an existing record. -/
structure JSON (δ : Type) where
  zero : δ
  MarshalIndent : Host δ → Except String String
  Unmarshal : String → Host δ → Except String (Host δ)

/-- The errors the store returns. -/
inductive StoreError
  /-- Embeds `mcnerror.ErrHostDoesNotExist{Name: name}` -/
  | ErrHostDoesNotExist (Name : String)
  /-- An error of a file-system call, returned unchanged. -/
  | io (e : Errno)
  /-- An error of `encoding/json`, returned unchanged. -/
  | json (msg : String)
  deriving DecidableEq, Repr

/-! ## The store -/

/-- The store; `Path` is its cleaned absolute root. -/
structure Filestore where
  Path : PathName
  CaCertPath : String
  CaPrivateKeyPath : String

/-- Embeds `NewFilestore`. -/
def NewFilestore (path : PathName) (caCertPath caPrivateKeyPath : String) : Filestore :=
  ⟨path, caCertPath, caPrivateKeyPath⟩

/-- Embeds `Filestore.GetMachinesDir`. -/
def Filestore.GetMachinesDir (s : Filestore) : PathName := s.Path ++ ["machines"]

/-- The deferred `os.Remove(tmpfi.Name())`, whose error is dropped. -/
def removeDeferred (p : PathName) (fs : FS) : FS :=
  match Remove p fs with
  | .ok fs1 => fs1
  | .error _ => fs

/-- Lines 43-56 of `saveToFile`: write the temporary file, close it, remove
the document, rename the temporary file into place. Closing the freshly
written file changes nothing and does not fail. -/
def replaceFile (data : String) (file tmp : PathName) (fs : FS) : Run :=
  match (WriteFile tmp data fs).err with
  | some e => ⟨some e, (WriteFile tmp data fs).fs, (WriteFile tmp data fs).seen⟩
  | none =>
    match Remove file (WriteFile tmp data fs).fs with
    | .error e => ⟨some e, (WriteFile tmp data fs).fs, (WriteFile tmp data fs).seen⟩
    | .ok fs4 =>
      match Rename tmp file fs4 with
      | .error e => ⟨some e, fs4, (WriteFile tmp data fs).seen ++ [fs4]⟩
      | .ok fs5 => ⟨none, fs5, (WriteFile tmp data fs).seen ++ [fs4, fs5]⟩

/-- Embeds `Filestore.saveToFile`; `cands` are the random draws of `TempFile`. -/
def Filestore.saveToFile (cands : List String) (data : String) (file : PathName) (fs : FS) : Run :=
  match Stat fs file with
  | .error .ENOENT => WriteFile file data fs
  | _ =>
    match TempFile file.dropLast "config.json.tmp" cands fs with
    | .error e => ⟨some e, fs, []⟩
    | .ok (tmp, fs1) =>
      ⟨(replaceFile data file tmp fs1).err,
        removeDeferred tmp (replaceFile data file tmp fs1).fs,
        fs1 :: (replaceFile data file tmp fs1).seen ++
          [removeDeferred tmp (replaceFile data file tmp fs1).fs]⟩

/-- Embeds `filepath.Join(s.GetMachinesDir(), name)`. -/
def Filestore.hostPath (s : Filestore) (name : String) : PathName :=
  filepathJoin s.GetMachinesDir name

/-- Embeds `Filestore.Save`. -/
def Filestore.Save {δ : Type} (s : Filestore) (j : JSON δ) (cands : List String)
    (host : Host δ) (fs : FS) : Option StoreError × FS :=
  match j.MarshalIndent host with
  | .error m => (some (.json m), fs)
  | .ok data =>
    match MkdirAll (s.hostPath host.Name) fs with
    | (some e, fs1) => (some (.io e), fs1)
    | (none, fs1) =>
      ((Filestore.saveToFile cands data (s.hostPath host.Name ++ ["config.json"]) fs1).err.map .io,
        (Filestore.saveToFile cands data (s.hostPath host.Name ++ ["config.json"]) fs1).fs)

/-- Embeds `Filestore.Remove`. -/
def Filestore.Remove (s : Filestore) (name : String) (fs : FS) : Option StoreError × FS :=
  ((RemoveAll (s.hostPath name) fs).1.map .io, (RemoveAll (s.hostPath name) fs).2)

/-- Embeds `Filestore.List`; an error comes with the `nil` list. -/
def Filestore.List (s : Filestore) (fs : FS) : List String × Option StoreError :=
  match ReadDir s.GetMachinesDir fs with
  | .error e =>
    if IsNotExist e then ([], none) else ([], some (.io e))
  | .ok dir =>
    ((dir.filter (fun file => file.IsDir && !HasPrefix file.Name ".")).map (fun file => file.Name),
      none)

/-- Embeds `Filestore.Exists`. -/
def Filestore.Exists (s : Filestore) (name : String) (fs : FS) : Bool × Option StoreError :=
  match Stat fs (s.hostPath name) with
  | .error e => if IsNotExist e then (false, none) else (false, some (.io e))
  | .ok _ => (true, none)

/-- Embeds `Filestore.loadConfig`. -/
def Filestore.loadConfig {δ : Type} (s : Filestore) (j : JSON δ) (h : Host δ) (fs : FS) :
    Except StoreError (Host δ) :=
  match ReadFile (s.hostPath h.Name ++ ["config.json"]) fs with
  | .error e => .error (.io e)
  | .ok data =>
    match j.Unmarshal data h with
    | .error m => .error (.json m)
    | .ok h1 => .ok h1

/-- Embeds `Filestore.Load`. -/
def Filestore.Load {δ : Type} (s : Filestore) (j : JSON δ) (name : String) (fs : FS) :
    Except StoreError (Host δ) :=
  match Stat fs (s.hostPath name) with
  | .error .ENOENT => .error (.ErrHostDoesNotExist name)
  | _ => Filestore.loadConfig s j ⟨name, j.zero⟩ fs

/-! ## Host names and store histories -/

/-- A host name that is one path component: not empty, not `.` or `..`, and
without a separator. -/
def validName (name : String) : Prop :=
  name ≠ "" ∧ name ≠ "." ∧ name ≠ ".." ∧ '/' ∉ name.data

instance validName_decidable (name : String) : Decidable (validName name) := by
  unfold validName
  infer_instance

/-- A call that changes the store. -/
inductive StoreOp (δ : Type)
  | save (cands : List String) (host : Host δ)
  | remove (name : String)

/-- The host name a call is about. -/
def StoreOp.name {δ : Type} : StoreOp δ → String
  | .save _ host => host.Name
  | .remove name => name

/-- The file system a call leaves, whether it returns an error or not. -/
def applyOp {δ : Type} (s : Filestore) (j : JSON δ) (fs : FS) : StoreOp δ → FS
  | .save cands host => (s.Save j cands host fs).2
  | .remove name => (s.Remove name fs).2

/-- The file system a sequence of calls leaves. -/
def runOps {δ : Type} (s : Filestore) (j : JSON δ) (ops : List (StoreOp δ)) (fs : FS) : FS :=
  ops.foldl (applyOp s j) fs

/-- Whether no prefix of the path is a regular file. -/
def noFileOnPath (fs : FS) (p : PathName) : Bool :=
  p.inits.all (fun q =>
    match nodeAt fs q with
    | some (.file _) => false
    | _ => true)

/-- Nothing is stored at the path of the host, and no regular file stands
in the way to it. -/
def Filestore.hostAbsent (s : Filestore) (name : String) (fs : FS) : Prop :=
  nodeAt fs (s.hostPath name) = none ∧ noFileOnPath fs (s.hostPath name) = true

instance hostAbsent_decidable (s : Filestore) (name : String) (fs : FS) :
    Decidable (s.hostAbsent name fs) := by
  unfold Filestore.hostAbsent
  infer_instance

/-- A path the file system accepts: no zero byte, shorter than `PATH_MAX`,
every component at most `NAME_MAX` bytes. -/
def acceptable (p : PathName) : Prop :=
  pathErr p = none ∧ p.all (fun c => !tooLong c) = true

instance acceptable_decidable (p : PathName) : Decidable (acceptable p) := by
  unfold acceptable
  infer_instance

/-! ## A sample store -/

/-- A store rooted at `/home/user/.docker/machine`. -/
def sampleStore : Filestore := ⟨["home", "user", ".docker", "machine"], "", ""⟩

/-- The text up to the first line break, and the text after it if there is
a line break. -/
def splitLine : List Char → List Char × Option (List Char)
  | [] => ([], none)
  | c :: cs =>
    if c = '\n' then ([], some cs)
    else ((c :: (splitLine cs).1), (splitLine cs).2)

/-- A two-line document format for records whose payload is one string: the
name on the first line, the payload after it. -/
def sampleJSON : JSON String where
  zero := ""
  MarshalIndent := fun h => .ok (h.Name ++ "\n" ++ h.Payload)
  Unmarshal := fun data _ =>
    match splitLine data.data with
    | (name, some payload) => .ok ⟨String.mk name, String.mk payload⟩
    | (_, none) => .error "unexpected end of input"

/-- Whether a byte continues a UTF-8 sequence. -/
def isCont (b : Nat) : Bool := decide (128 ≤ b ∧ b < 192)

/-- Embeds `utf8.DecodeRune`: the first code point of a byte string and the number of
bytes it takes; an encoding that is invalid or cut off is U+FFFD of width 1. -/
def DecodeRune : List Nat → Nat × Nat
  | [] => (65533, 0)
  | b0 :: rest =>
    if b0 < 128 then (b0, 1)
    else if 194 ≤ b0 ∧ b0 < 224 then
      match rest with
      | b1 :: _ =>
        if isCont b1 then ((b0 - 192) * 64 + (b1 - 128), 2) else (65533, 1)
      | [] => (65533, 1)
    else if 224 ≤ b0 ∧ b0 < 240 then
      match rest with
      | b1 :: b2 :: _ =>
        if (if b0 = 224 then 160 else 128) ≤ b1 ∧ b1 ≤ (if b0 = 237 then 159 else 191) ∧
            isCont b2 then
          ((b0 - 224) * 4096 + (b1 - 128) * 64 + (b2 - 128), 3)
        else (65533, 1)
      | _ => (65533, 1)
    else if 240 ≤ b0 ∧ b0 < 245 then
      match rest with
      | b1 :: b2 :: b3 :: _ =>
        if (if b0 = 240 then 144 else 128) ≤ b1 ∧ b1 ≤ (if b0 = 244 then 143 else 191) ∧
            isCont b2 ∧ isCont b3 then
          ((b0 - 240) * 262144 + (b1 - 128) * 4096 + (b2 - 128) * 64 + (b3 - 128), 4)
        else (65533, 1)
      | _ => (65533, 1)
    else (65533, 1)

/-- The code points of a byte string, every invalid byte read as U+FFFD;
`fuel` bounds the number of code points. -/
def toRunes : Nat → List Nat → List Char
  | 0, _ => []
  | _ + 1, [] => []
  | fuel + 1, b :: bs =>
    Char.ofNat (DecodeRune (b :: bs)).1 ::
      toRunes fuel ((b :: bs).drop (DecodeRune (b :: bs)).2)

/-- A Go string, which is any byte string, coerced to valid UTF-8 the way
`encoding/json` writes a string value: every invalid byte becomes U+FFFD. -/
def toValidUTF8 (bytes : List Nat) : List Char := toRunes bytes.length bytes

/-- The UTF-8 encoding of a code point. -/
def encodeRune (c : Char) : List Nat :=
  if c.toNat < 128 then [c.toNat]
  else if c.toNat < 2048 then [192 + c.toNat / 64, 128 + c.toNat % 64]
  else if c.toNat < 65536 then
    [224 + c.toNat / 4096, 128 + c.toNat / 64 % 64, 128 + c.toNat % 64]
  else
    [240 + c.toNat / 262144, 128 + c.toNat / 4096 % 64, 128 + c.toNat / 64 % 64,
      128 + c.toNat % 64]

/-- A document format for records whose payload is one Go string. Like
`encoding/json` it writes the string coerced to valid UTF-8, so that a byte
that is not part of a valid encoding comes back as U+FFFD; the name is on
the first line, the payload after it. -/
def coercingJSON : JSON (List Nat) where
  zero := []
  MarshalIndent := fun h => .ok (h.Name ++ "\n" ++ String.mk (toValidUTF8 h.Payload))
  Unmarshal := fun data _ =>
    match splitLine data.data with
    | (name, some payload) => .ok ⟨String.mk name, payload.flatMap encodeRune⟩
    | (_, none) => .error "unexpected end of input"

/-- A host name of 256 bytes. -/
def longName : String := String.mk (List.replicate 256 'a')

/-- The document of the host `m1` in the sample store. -/
def sampleFile : PathName := ["home", "user", ".docker", "machine", "machines", "m1", "config.json"]

/-- A disk on which the host `m1` has been saved. -/
def sampleDisk : FS :=
  [(["home", "user", ".docker", "machine", "machines", "m1", "config.json"], .file "m1\nnone"),
   (["home", "user", ".docker", "machine", "machines", "m1"], .dir),
   (["home", "user", ".docker", "machine", "machines"], .dir),
   (["home", "user", ".docker", "machine"], .dir),
   (["home", "user", ".docker"], .dir),
   (["home", "user"], .dir),
   (["home"], .dir)]

/-- A disk on which the directory of `m1` exists without a document. -/
def emptyHostDisk : FS :=
  [(["home", "user", ".docker", "machine", "machines", "m1"], .dir),
   (["home", "user", ".docker", "machine", "machines"], .dir),
   (["home", "user", ".docker", "machine"], .dir),
   (["home", "user", ".docker"], .dir),
   (["home", "user"], .dir),
   (["home"], .dir)]

/-- A disk on which the document of `m1` is cut off after the name. -/
def cutOffDisk : FS :=
  (["home", "user", ".docker", "machine", "machines", "m1", "config.json"], .file "m1") ::
    emptyHostDisk

/-- A disk whose machines directory holds the host `m1`, a hidden directory
and a regular file. -/
def mixedDisk : FS :=
  (["home", "user", ".docker", "machine", "machines", ".cache"], .dir) ::
    (["home", "user", ".docker", "machine", "machines", "notes.txt"], .file "") :: sampleDisk

end persist

/-! # Theorems -/

namespace provision

theorem runCmds_append (r : Remote) (a b : List String) (t : List String) :
    runCmds r (a ++ b) t =
      match runCmds r a t with
      | (some e, t1) => (some e, t1)
      | (none, t1) => runCmds r b t1 := by
  induction a generalizing t with
  | nil => simp [runCmds]
  | cons c cs ih =>
    simp only [List.cons_append, runCmds]
    cases h : (SSHCommand r c t).1.err with
    | some e => simp
    | none => simp [ih]

theorem failed_runCmds_append (r : Remote) (a b : List String) (t : List String) :
    failed (runCmds r (a ++ b) t) =
      if (failed (runCmds r a t)).1 then failed (runCmds r a t)
      else failed (runCmds r b (runCmds r a t).2) := by
  rw [runCmds_append]
  rcases h : runCmds r a t with ⟨_ | e, t1⟩ <;> simp [failed]

theorem failed_runCmds_single (r : Remote) (c : String) (t : List String) :
    failed (runCmds r [c] t) = ((r t c).err.isSome, t ++ [c]) := by
  simp only [runCmds, SSHCommand]
  cases h : (r t c).err <;> simp [failed]

theorem failed_SetHostname (p : RancherProvisioner) (r : Remote) (hostname : String)
    (t : List String) :
    failed (SetHostname p r hostname t) = failed (runCmds r (setHostnameCmds p hostname) t) := by
  unfold setHostnameCmds
  rw [List.append_assoc, failed_runCmds_append, failed_runCmds_single,
    failed_runCmds_append, failed_runCmds_single]
  unfold SetHostname genericSetHostname
  simp only [SSHCommand]
  cases h1 : (r t stripHostsCmd).err with
  | some e => simp [failed, runCmds, SSHCommand, h1]
  | none =>
    simp only [runCmds, SSHCommand, h1]
    rcases h2 : runCmds r (p.genericHostnameCmds hostname) (t ++ [stripHostsCmd])
      with ⟨_ | e, t2⟩
    · cases h3 : (r t2 (hostnameTmpl hostname)).err <;> simp [failed, h3]
    · simp [failed]

theorem failed_installPackages (r : Remote) (pkgs : List String) (t : List String) :
    failed (installPackages r pkgs t) =
      failed (runCmds r (pkgs.map (fun pkg => serviceCmd (packageAction .Install) pkg)) t) := by
  induction pkgs generalizing t with
  | nil => simp [installPackages, runCmds, failed]
  | cons pkg rest ih =>
    simp only [installPackages, List.map_cons, runCmds, Package, SSHCommand]
    cases h : (r t (serviceCmd (packageAction .Install) pkg)).err with
    | some e => simp [failed]
    | none => simpa using ih _

theorem failed_selectDocker (r : Remote) (url : String) (t : List String) :
    failed (selectDocker r url t) = failed (runCmds r [wgetCmd url] t) := by
  rw [failed_runCmds_single]
  simp only [selectDocker, SSHCommand]
  cases h : (r t (wgetCmd url)).err <;> simp [failed]

theorem failed_hostname_packages (p : RancherProvisioner) (r : Remote) (t : List String) :
    failed (runCmds r (setHostnameCmds p p.machineName ++
        p.Packages.map (fun pkg => serviceCmd (packageAction .Install) pkg)) t) =
      if (SetHostname p r p.machineName t).1.isSome then failed (SetHostname p r p.machineName t)
      else failed (installPackages r p.Packages (SetHostname p r p.machineName t).2) := by
  have h1 := failed_SetHostname p r p.machineName t
  have h2 : (runCmds r (setHostnameCmds p p.machineName) t).2 =
      (SetHostname p r p.machineName t).2 := (congrArg Prod.snd h1).symm
  rw [failed_runCmds_append, ← h1, h2, ← failed_installPackages]
  rfl

theorem failed_provisionSteps (p : RancherProvisioner) (r : Remote) (o : EngineOptions)
    (t : List String) :
    failed (provisionSteps p r o t) = failed (runCmds r (provisionCmds p o) t) := by
  have h1 := failed_hostname_packages p r t
  have h2 := congrArg Prod.snd h1
  unfold provisionCmds
  rw [failed_runCmds_append, h1]
  change _ = if _ then _ else failed (runCmds r _ (failed (runCmds r _ t)).2)
  rw [h1]
  clear h1 h2
  unfold provisionSteps
  rcases hA : SetHostname p r p.machineName t with ⟨_ | e, t1⟩
  · rcases hB : installPackages r p.Packages t1 with ⟨_ | e, t2⟩
    · by_cases hu : o.InstallURL = p.DefaultEngineInstallURL
      · simp [failed, hu, runCmds, hB]
      · simpa [failed, hu, hB] using failed_selectDocker r o.InstallURL t2
    · simp [failed, hB]
  · simp [failed]

theorem runCmds_extends (r : Remote) (cmds : List String) (t : List String) :
    t <+: (runCmds r cmds t).2 := by
  induction cmds generalizing t with
  | nil => simp [runCmds]
  | cons c cs ih =>
    simp only [runCmds, SSHCommand]
    cases h : (r t c).err with
    | some e => simp
    | none => exact (List.prefix_append t [c]).trans (ih _)

theorem runCmds_none (r : Remote) (cmds : List String) (t t1 : List String)
    (h : runCmds r cmds t = (none, t1)) : t1 = t ++ cmds := by
  induction cmds generalizing t with
  | nil => simpa [runCmds, eq_comm] using h
  | cons c cs ih =>
    simp only [runCmds, SSHCommand] at h
    cases hc : (r t c).err with
    | some e => simp [hc] at h
    | none =>
      simp only [hc] at h
      simpa using ih _ h

/-- In a fail-fast run a failing command is the last one sent, and the run
reports an error. -/
theorem runCmds_failfast (r : Remote) (cmds : List String) (t : List String) (k : Nat)
    (c : String) (hk : t.length ≤ k) (hc : (runCmds r cmds t).2[k]? = some c)
    (hf : (r ((runCmds r cmds t).2.take k) c).err.isSome) :
    (runCmds r cmds t).1.isSome ∧ k + 1 = (runCmds r cmds t).2.length := by
  induction cmds generalizing t with
  | nil =>
    simp only [runCmds] at hc
    have := (List.getElem?_eq_some.1 hc).1
    omega
  | cons d ds ih =>
    simp only [runCmds, SSHCommand] at hc hf ⊢
    cases hd : (r t d).err with
    | some e =>
      simp only [hd] at hc hf ⊢
      have hlt := (List.getElem?_eq_some.1 hc).1
      simp at hlt
      simp
      omega
    | none =>
      simp only [hd] at hc hf ⊢
      by_cases hk1 : t.length + 1 ≤ k
      · exact ih (t ++ [d]) (by simpa using hk1) hc hf
      · have hkeq : k = t.length := by omega
        subst hkeq
        obtain ⟨w, hw⟩ := runCmds_extends r ds (t ++ [d])
        rw [← hw] at hc hf
        have h1 : (t ++ [d] ++ w)[t.length]? = some d := by
          rw [List.append_assoc, List.getElem?_append_right (le_refl _)]
          simp
        have h2 : List.take t.length (t ++ [d] ++ w) = t := by simp
        rw [h1] at hc
        rw [h2, ← Option.some.inj hc, hd] at hf
        simp at hf

/-- A fail-fast run in which no sent command fails sends every command and
reports no error. -/
theorem runCmds_all_ok (r : Remote) (cmds : List String) (t : List String)
    (h : ∀ k c, t.length ≤ k → (runCmds r cmds t).2[k]? = some c →
      (r ((runCmds r cmds t).2.take k) c).err = none) :
    runCmds r cmds t = (none, t ++ cmds) := by
  rcases hres : runCmds r cmds t with ⟨_ | e, t1⟩
  · rw [runCmds_none r cmds t t1 hres]
  · exfalso
    induction cmds generalizing t with
    | nil => simp [runCmds] at hres
    | cons d ds ih =>
      simp only [runCmds, SSHCommand] at hres h
      cases hd : (r t d).err with
      | some e1 =>
        simp only [hd] at hres h
        have := h t.length d (le_refl _) (by simp)
        simp [hd] at this
      | none =>
        simp only [hd] at hres h
        exact ih (t ++ [d]) (fun k c hk hc => h k c (by simp at hk; omega) hc) hres

/-- The call `Provision` on an accepted storage driver, reduced to the fail-fast run
of its command list. -/
theorem failed_Provision (p : RancherProvisioner) (r : Remote) (o : EngineOptions)
    (t : List String) (hdrv : o.StorageDriver = "" ∨ o.StorageDriver = "overlay") :
    ((Provision p r o t).err.isSome, (Provision p r o t).trace) =
      failed (runCmds r (provisionCmds p o) t) := by
  rcases hdrv with h | h
  · simp only [Provision, h, if_true]
    exact failed_provisionSteps _ r o t
  · have h0 : o.StorageDriver ≠ "" := by rw [h]; decide
    simp only [Provision, h, if_neg h0, ne_eq, not_true_eq_false, if_false]
    rw [if_neg (by decide)]
    exact failed_provisionSteps _ r o t

theorem Provision_rejected (p : RancherProvisioner) (r : Remote)
    (o : EngineOptions) (t : List String)
    (h1 : o.StorageDriver ≠ "") (h2 : o.StorageDriver ≠ "overlay") :
    (Provision p r o t).err = some (.unsupportedStorageDriver o.StorageDriver) ∧
      (Provision p r o t).trace = t := by
  simp [Provision, h1, h2]

/-- C3: with a storage driver that is neither unset nor "overlay",
`Provision` returns the unsupported-storage-driver error and sends no remote
command: the trace is what it was before the call (empty for a fresh
session). -/
theorem Provision_unsupported_storage_driver (p : RancherProvisioner) (r : Remote)
    (o : EngineOptions) (t : List String)
    (h1 : o.StorageDriver ≠ "") (h2 : o.StorageDriver ≠ "overlay") :
    (Provision p r o t).err = some (.unsupportedStorageDriver o.StorageDriver) ∧
      (Provision p r o t).trace = t :=
  Provision_rejected p r o t h1 h2

/-- C4: when the upgrade command succeeds, `Package("docker", Upgrade)` sends
exactly the upgrade command and then the reboot command, and returns no
error whatever the remote host answers to the reboot command. -/
theorem Package_docker_upgrade (r : Remote) (t : List String)
    (h : (r t upgradeCmd).err = none) :
    Package r "docker" .Upgrade t = (none, t ++ [upgradeCmd, rebootCmd]) := by
  simp [Package, upgrade, SSHCommand, h]

/-- C5: on an accepted storage driver (unset or "overlay"), when every
command that `Provision` sends succeeds, `Provision` succeeds and its trace
is the commands of one `SetHostname(machine name)` call, then the install
command of each declared package in declaration order, then the
download-and-execute command exactly when the install URL is not the
default one. -/
theorem Provision_trace (p : RancherProvisioner) (r : Remote) (o : EngineOptions)
    (hdrv : o.StorageDriver = "" ∨ o.StorageDriver = "overlay")
    (hok : ∀ k c, (Provision p r o []).trace[k]? = some c →
      (r ((Provision p r o []).trace.take k) c).err = none) :
    (Provision p r o []).err = none ∧
      (SetHostname p r p.machineName []).1 = none ∧
      (Provision p r o []).trace =
        (SetHostname p r p.machineName []).2 ++
          p.Packages.map (fun pkg => serviceCmd (packageAction .Install) pkg) ++
          (if o.InstallURL ≠ p.DefaultEngineInstallURL then [wgetCmd o.InstallURL] else []) := by
  have hP := failed_Provision p r o [] hdrv
  have htr : (Provision p r o []).trace = (runCmds r (provisionCmds p o) []).2 :=
    congrArg Prod.snd hP
  have hall := runCmds_all_ok r (provisionCmds p o) []
    (fun k c _ hc => by rw [← htr] at hc ⊢; exact hok k c hc)
  rw [hall] at hP htr
  have herr : (Provision p r o []).err = none := by
    have := congrArg Prod.fst hP
    simpa [failed] using this
  have hS : runCmds r (setHostnameCmds p p.machineName) [] =
      (none, setHostnameCmds p p.machineName) := by
    have h1 := hall
    unfold provisionCmds at h1
    rw [List.append_assoc, runCmds_append] at h1
    rcases hA : runCmds r (setHostnameCmds p p.machineName) [] with ⟨_ | e, t1⟩
    · have := runCmds_none r _ _ _ hA
      simpa using this
    · rw [hA] at h1
      simp at h1
  have hS2 := failed_SetHostname p r p.machineName []
  rw [hS] at hS2
  simp only [failed, Prod.mk.injEq, Option.isSome_none] at hS2
  refine ⟨herr, ?_, ?_⟩
  · cases hx : (SetHostname p r p.machineName []).1 with
    | none => rfl
    | some e => rw [hx] at hS2; simp at hS2
  · rw [htr, hS2.2]
    simp [provisionCmds]

/-- C6: in every `Provision` run a remote command that fails is the last
command sent (nothing is sent after it, neither a later package install nor
any cleanup), and `Provision` returns an error. -/
theorem Provision_stops_at_first_failure (p : RancherProvisioner) (r : Remote)
    (o : EngineOptions) (k : Nat) (c : String)
    (hc : (Provision p r o []).trace[k]? = some c)
    (hf : (r ((Provision p r o []).trace.take k) c).err.isSome) :
    (Provision p r o []).err.isSome ∧ k + 1 = (Provision p r o []).trace.length := by
  by_cases hdrv : o.StorageDriver = "" ∨ o.StorageDriver = "overlay"
  · have hP := failed_Provision p r o [] hdrv
    have htr : (Provision p r o []).trace = (runCmds r (provisionCmds p o) []).2 :=
      congrArg Prod.snd hP
    have her : (Provision p r o []).err.isSome = (runCmds r (provisionCmds p o) []).1.isSome :=
      congrArg Prod.fst hP
    rw [htr] at hc hf ⊢
    rw [her]
    exact runCmds_failfast r _ [] k c (Nat.zero_le _) hc hf
  · push_neg at hdrv
    have := (Provision_rejected p r o [] hdrv.1 hdrv.2).2
    rw [this] at hc
    simp at hc

/-- C10: `Package("mysql", Install)` sends the one command
`sudo rancherctl service enabled mysql` and `Package("mysql", Remove)` the one
command `sudo rancherctl service disable mysql`: the install verb is
`enabled`, which is not `enable`, the counterpart of `disable`. -/
theorem Package_install_sends_enabled (r : Remote) :
    (Package r "mysql" .Install []).2 = ["sudo rancherctl service enabled mysql"] ∧
      (Package r "mysql" .Remove []).2 = ["sudo rancherctl service disable mysql"] ∧
      (Package r "mysql" .Install []).2 ≠ [serviceCmd "enable" "mysql"] := by
  have h1 : (Package r "mysql" .Install []).2 = ["sudo rancherctl service enabled mysql"] := by
    simp only [Package, SSHCommand]
    cases (r [] (serviceCmd (packageAction .Install) "mysql")).err <;> rfl
  have h2 : (Package r "mysql" .Remove []).2 = ["sudo rancherctl service disable mysql"] := by
    simp only [Package, SSHCommand]
    cases (r [] (serviceCmd (packageAction .Remove) "mysql")).err <;> rfl
  refine ⟨h1, h2, ?_⟩
  rw [h1]
  decide

theorem Provision_unsupported_storage_driver_witness :
    (Provision sampleProvisioner okRemote ⟨"https://get.docker.com", "aufs"⟩ []).err =
        some (.unsupportedStorageDriver "aufs") ∧
      (Provision sampleProvisioner okRemote ⟨"https://get.docker.com", "aufs"⟩ []).trace = [] :=
  Provision_unsupported_storage_driver sampleProvisioner okRemote
    ⟨"https://get.docker.com", "aufs"⟩ [] (by decide) (by decide)

theorem Package_docker_upgrade_witness :
    Package (failingOn rebootCmd) "docker" .Upgrade [] = (none, [] ++ [upgradeCmd, rebootCmd]) :=
  Package_docker_upgrade (failingOn rebootCmd) [] (by decide)

theorem Provision_trace_witness :
    (Provision sampleProvisioner okRemote ⟨"https://example.org/engine", ""⟩ []).err = none ∧
      (SetHostname sampleProvisioner okRemote sampleProvisioner.machineName []).1 = none ∧
      (Provision sampleProvisioner okRemote ⟨"https://example.org/engine", ""⟩ []).trace =
        (SetHostname sampleProvisioner okRemote sampleProvisioner.machineName []).2 ++
          sampleProvisioner.Packages.map (fun pkg => serviceCmd (packageAction .Install) pkg) ++
          (if (⟨"https://example.org/engine", ""⟩ : EngineOptions).InstallURL ≠
              sampleProvisioner.DefaultEngineInstallURL
            then [wgetCmd (⟨"https://example.org/engine", ""⟩ : EngineOptions).InstallURL]
            else []) :=
  Provision_trace sampleProvisioner okRemote ⟨"https://example.org/engine", ""⟩
    (Or.inl rfl) (fun _ _ _ => rfl)

theorem Provision_stops_at_first_failure_witness :
    (Provision sampleProvisioner (failingOn (serviceCmd "enabled" "mysql"))
        ⟨"https://example.org/engine", "overlay"⟩ []).err.isSome ∧
      3 + 1 = (Provision sampleProvisioner (failingOn (serviceCmd "enabled" "mysql"))
        ⟨"https://example.org/engine", "overlay"⟩ []).trace.length :=
  Provision_stops_at_first_failure sampleProvisioner (failingOn (serviceCmd "enabled" "mysql"))
    ⟨"https://example.org/engine", "overlay"⟩ 3 (serviceCmd "enabled" "mysql")
    (by decide) (by decide)

end provision

namespace persist

theorem entryAt_erase (fs : FS) (p q : PathName) :
    entryAt (erase fs p) q = if q = p then none else entryAt fs q := by
  induction fs with
  | nil => simp [erase, entryAt]
  | cons e rest ih =>
    obtain ⟨a, n⟩ := e
    unfold erase at ih ⊢
    by_cases hap : a = p
    · subst hap
      simp only [List.filter, ne_eq, not_true_eq_false, decide_False, ih, entryAt]
      by_cases hq : q = a
      · simp [hq]
      · simp [hq, Ne.symm hq]
    · simp only [List.filter, ne_eq, hap, not_false_eq_true, decide_True, entryAt, ih]
      by_cases hq : q = p
      · subst hq
        simp [hap]
      · simp [hq]

theorem nodeAt_erase (fs : FS) (p q : PathName) (hp : p ≠ []) :
    nodeAt (erase fs p) q = if q = p then none else nodeAt fs q := by
  unfold nodeAt
  rw [entryAt_erase]
  by_cases hq : q = []
  · subst hq
    simp [Ne.symm hp]
  · simp [hq]

theorem nodeAt_put (fs : FS) (p q : PathName) (n : Node) (hp : p ≠ []) :
    nodeAt (put fs p n) q = if q = p then some n else nodeAt fs q := by
  unfold nodeAt put
  simp only [entryAt, entryAt_erase]
  by_cases hq : q = []
  · subst hq
    simp [Ne.symm hp]
  · by_cases hqp : q = p
    · subst hqp
      simp [hq]
    · simp [hq, hqp, Ne.symm hqp]

theorem entryAt_filter_under (fs : FS) (p q : PathName) :
    entryAt (fs.filter (fun e => ¬ p <+: e.1)) q = if p <+: q then none else entryAt fs q := by
  induction fs with
  | nil => simp [entryAt]
  | cons e rest ih =>
    obtain ⟨a, n⟩ := e
    by_cases hpa : p <+: a
    · simp only [List.filter, hpa, not_true_eq_false, decide_False, ih, entryAt]
      by_cases hq : p <+: q
      · simp [hq]
      · have : a ≠ q := fun h => hq (h ▸ hpa)
        simp [hq, this]
    · simp only [List.filter, hpa, not_false_eq_true, decide_True, entryAt, ih]
      by_cases haq : a = q
      · subst haq
        simp [hpa]
      · simp [haq]

theorem entryAt_some_mem (fs : FS) (p : PathName) (n : Node) (h : entryAt fs p = some n) :
    (p, n) ∈ fs := by
  induction fs with
  | nil => simp [entryAt] at h
  | cons e rest ih =>
    obtain ⟨a, m⟩ := e
    unfold entryAt at h
    by_cases ha : a = p
    · simp only [ha, if_true, Option.some.injEq] at h
      simp [ha, h]
    · simp only [ha, if_false] at h
      exact List.mem_cons_of_mem _ (ih h)

theorem mem_childNames (fs : FS) (dir : PathName) (c : String) :
    c ∈ childNames fs dir ↔ ∃ n, (dir ++ [c], n) ∈ fs := by
  unfold childNames
  rw [List.mem_insertionSort, List.mem_dedup, List.mem_filterMap]
  constructor
  · rintro ⟨⟨a, n⟩, hmem, hx⟩
    by_cases hd : a.dropLast = dir
    · simp only [hd, if_true] at hx
      have hne : a ≠ [] := by
        rintro rfl
        simp at hx
      have hl : a.getLast hne = c := by
        rw [List.getLast?_eq_getLast _ hne] at hx
        exact Option.some.inj hx
      refine ⟨n, ?_⟩
      rw [← hd, ← hl, List.dropLast_append_getLast hne]
      exact hmem
    · simp [hd] at hx
  · rintro ⟨n, hmem⟩
    exact ⟨(dir ++ [c], n), hmem, by simp⟩

theorem splitSlash_of_not_mem (cs : List Char) (h : '/' ∉ cs) : splitSlash cs = [cs] := by
  induction cs with
  | nil => rfl
  | cons c rest ih =>
    have hc : c ≠ '/' := fun hc => h (by simp [hc])
    have hr : '/' ∉ rest := fun hr => h (List.mem_cons_of_mem _ hr)
    simp [splitSlash, hc, ih hr]

/-- The path of a host whose name is one path component. -/
theorem hostPath_valid (s : Filestore) (name : String) (h : validName name) :
    s.hostPath name = s.GetMachinesDir ++ [name] := by
  obtain ⟨h1, h2, h3, h4⟩ := h
  simp [Filestore.hostPath, filepathJoin, splitSlash_of_not_mem _ h4, cleanStep, h1, h2, h3]

theorem nodeAt_removeAll (fs : FS) (p q : PathName) (hp : p ≠ []) :
    nodeAt (fs.filter (fun e => ¬ p <+: e.1)) q = if p <+: q then none else nodeAt fs q := by
  unfold nodeAt
  rw [entryAt_filter_under]
  by_cases hq : q = []
  · subst hq
    simp [hp]
  · simp [hq]

theorem prefix_ne_longer (q m : PathName) (x : List String) (hq : q <+: m) (hx : x ≠ []) :
    q ≠ m ++ x := by
  intro h
  have h1 := hq.length_le
  rw [h, List.length_append] at h1
  have := List.length_pos.2 hx
  omega

theorem sibling_not_under (d : PathName) (a b : String) (h : a ≠ b) :
    ¬ (d ++ [a]) <+: (d ++ [b]) := by
  intro hp
  have := List.prefix_append_right_inj d |>.1 hp
  have h2 := this.eq_of_length (by simp)
  simp at h2
  exact h h2

theorem Stat_not_ENOENT_branch {α : Type} (fs : FS) (p : PathName) (x y : α)
    (hs : Stat fs p ≠ .error .ENOENT) :
    (match Stat fs p with
      | .error .ENOENT => x
      | _ => y) = y := by
  split
  · rename_i heq
    exact absurd heq hs
  · rfl

theorem hasNul_mono (q p : PathName) (h : q <+: p) (hq : hasNul q = true) :
    hasNul p = true := by
  obtain ⟨t, rfl⟩ := h
  simp only [hasNul, List.any_append, Bool.or_eq_true] at hq ⊢
  exact Or.inl hq

theorem pathBytes_mono (q p : PathName) (h : q <+: p) : pathBytes q ≤ pathBytes p := by
  obtain ⟨t, rfl⟩ := h
  simp [pathBytes]

/-- A path that a system call takes has only prefixes that it takes. -/
theorem pathErr_below (q p : PathName) (h : q <+: p) (hp : pathErr p = none) :
    pathErr q = none := by
  unfold pathErr at hp ⊢
  have hb := pathBytes_mono q p h
  by_cases hn : hasNul p = true
  · simp [hn] at hp
  · have hnq : ¬ hasNul q = true := fun hq => hn (hasNul_mono q p h hq)
    simp only [hn, if_false] at hp
    by_cases hl : PATH_MAX ≤ pathBytes p
    · simp [hl] at hp
    · have hlq : ¬ PATH_MAX ≤ pathBytes q := by omega
      simp [hnq, hlq]

theorem resolve_snoc (fs : FS) (cur : PathName) (rest : List String) (c : String) :
    resolve fs cur (rest ++ [c]) =
      match resolve fs cur rest with
      | .ok .dir =>
        if tooLong c then .error .ENAMETOOLONG
        else
          (match nodeAt fs (cur ++ rest ++ [c]) with
            | some n => .ok n
            | none => .error .ENOENT)
      | .ok (.file _) => .error .ENOTDIR
      | .error e => .error e := by
  induction rest generalizing cur with
  | nil =>
    simp only [List.nil_append, resolve, List.append_nil]
    rcases nodeAt fs cur with _ | _ | d <;> rfl
  | cons a rest ih =>
    simp only [List.cons_append, resolve]
    rcases nodeAt fs cur with _ | _ | d
    · rfl
    · by_cases ha : tooLong a = true
      · simp [ha]
      · simpa [ha] using ih (cur ++ [a])
    · rfl

theorem resolve_congr (fs fs1 : FS) (p : PathName)
    (h : ∀ q, q <+: p → nodeAt fs1 q = nodeAt fs q) : resolve fs1 [] p = resolve fs [] p := by
  induction p using List.reverseRecOn with
  | nil => simp [resolve, nodeAt]
  | append_singleton p c ih =>
    have h1 := resolve_snoc fs1 [] p c
    have h2 := resolve_snoc fs [] p c
    simp only [List.nil_append] at h1 h2
    rw [h1, h2, ih (fun q hq => h q (hq.trans (List.prefix_append p [c]))),
      h (p ++ [c]) (List.prefix_refl _)]

/-- Two file systems with the same nodes at every prefix of a path resolve
the path alike. -/
theorem Stat_congr (fs fs1 : FS) (p : PathName)
    (h : ∀ q, q <+: p → nodeAt fs1 q = nodeAt fs q) : Stat fs1 p = Stat fs p := by
  unfold Stat
  rw [resolve_congr fs fs1 p h]

theorem Stat_nil (fs : FS) : Stat fs [] = .ok .dir := by
  simp [Stat, pathErr, hasNul, pathBytes, PATH_MAX, resolve, nodeAt]

theorem Stat_snoc (fs : FS) (p : PathName) (c : String) (hp : pathErr (p ++ [c]) = none) :
    Stat fs (p ++ [c]) =
      match Stat fs p with
      | .ok .dir =>
        if tooLong c then .error .ENAMETOOLONG
        else
          (match nodeAt fs (p ++ [c]) with
            | some n => .ok n
            | none => .error .ENOENT)
      | .ok (.file _) => .error .ENOTDIR
      | .error e => .error e := by
  have hq := pathErr_below p (p ++ [c]) (List.prefix_append p [c]) hp
  unfold Stat
  rw [hp, hq]
  simpa using resolve_snoc fs [] p c

theorem Stat_ok_pathErr (fs : FS) (p : PathName) (n : Node) (h : Stat fs p = .ok n) :
    pathErr p = none := by
  unfold Stat at h
  rcases hp : pathErr p with _ | e
  · rfl
  · simp [hp] at h

/-- A path that resolves lies in a directory that resolves, under a name
the directory takes. -/
theorem Stat_snoc_ok (fs : FS) (p : PathName) (c : String) (n : Node)
    (h : Stat fs (p ++ [c]) = .ok n) :
    Stat fs p = .ok .dir ∧ nodeAt fs (p ++ [c]) = some n ∧ tooLong c = false ∧
      pathErr (p ++ [c]) = none := by
  have hp := Stat_ok_pathErr _ _ _ h
  rw [Stat_snoc _ _ _ hp] at h
  rcases hs : Stat fs p with e | _ | d
  · simp [hs] at h
  · rw [hs] at h
    by_cases hl : tooLong c = true
    · simp [hl] at h
    · have hl1 : tooLong c = false := by simpa using hl
      rcases hn : nodeAt fs (p ++ [c]) with _ | m
      · simp [hn, hl1] at h
      · simp only [hn, hl1, Bool.false_eq_true, if_false, Except.ok.injEq] at h
        simp [h, hp, hl1]
  · simp [hs] at h

/-- What `parentDir` has checked when it returns no error. -/
theorem parentDir_ok (fs : FS) (p : PathName) (h : parentDir fs p = .ok ()) :
    pathErr p = none ∧ Stat fs p.dropLast = .ok .dir ∧ lastTooLong p = false := by
  unfold parentDir at h
  rcases hp : pathErr p with _ | e
  · simp only [hp] at h
    rcases hs : Stat fs p.dropLast with e | _ | d
    · simp [hs] at h
    · simp only [hs] at h
      by_cases hl : lastTooLong p = true
      · simp [hl] at h
      · simp [hl]
    · simp [hs] at h
  · simp [hp] at h

theorem lastTooLong_snoc (p : PathName) (c : String) : lastTooLong (p ++ [c]) = tooLong c := by
  simp [lastTooLong]

theorem Stat_put_self (fs : FS) (p : PathName) (n : Node) (hp : p ≠ [])
    (he : pathErr p = none) (hd : Stat fs p.dropLast = .ok .dir) (hl : lastTooLong p = false) :
    Stat (put fs p n) p = .ok n := by
  have hsplit := List.dropLast_append_getLast hp
  have h1 : Stat (put fs p n) p.dropLast = .ok .dir := by
    rw [← hd]
    apply Stat_congr
    intro q hq
    rw [nodeAt_put _ _ _ _ hp, if_neg]
    intro h
    have := hq.length_le
    rw [h, List.length_dropLast] at this
    have := List.length_pos.2 hp
    omega
  have h2 := Stat_snoc (put fs p n) p.dropLast (p.getLast hp) (by rw [hsplit]; exact he)
  have h3 : tooLong (p.getLast hp) = false := by
    rw [← lastTooLong_snoc p.dropLast, hsplit]
    exact hl
  rw [hsplit, h1, nodeAt_put _ _ _ _ hp, h3] at h2
  simpa using h2

theorem Stat_put_other (fs : FS) (p q : PathName) (n : Node) (hp : p ≠ [])
    (h : ¬ p <+: q) : Stat (put fs p n) q = Stat fs q := by
  apply Stat_congr
  intro a ha
  rw [nodeAt_put _ _ _ _ hp, if_neg]
  intro hap
  exact h (hap ▸ ha)

theorem Stat_erase_other (fs : FS) (p q : PathName) (hp : p ≠ [])
    (h : ¬ p <+: q) : Stat (erase fs p) q = Stat fs q := by
  apply Stat_congr
  intro a ha
  rw [nodeAt_erase _ _ _ hp, if_neg]
  intro hap
  exact h (hap ▸ ha)

theorem dropLast_not_under (p : PathName) (hp : p ≠ []) : ¬ p <+: p.dropLast := by
  intro hpre
  have h1 := hpre.length_le
  rw [List.length_dropLast] at h1
  have := List.length_pos.2 hp
  omega

/-- What holds of a non-root path that resolves. -/
theorem Stat_ok_facts (fs : FS) (p : PathName) (n : Node) (hp : p ≠ [])
    (h : Stat fs p = .ok n) :
    pathErr p = none ∧ Stat fs p.dropLast = .ok .dir ∧ lastTooLong p = false ∧
      nodeAt fs p = some n := by
  have hsplit := List.dropLast_append_getLast hp
  rw [← hsplit] at h
  obtain ⟨h1, h2, h3, h4⟩ := Stat_snoc_ok _ _ _ _ h
  rw [hsplit] at h2 h4
  refine ⟨h4, h1, ?_, h2⟩
  rw [← hsplit, lastTooLong_snoc]
  exact h3

theorem openTrunc_ok (fs fs1 : FS) (p : PathName) (h : openTrunc p fs = .ok fs1) :
    p ≠ [] ∧ pathErr p = none ∧ Stat fs p.dropLast = .ok .dir ∧ lastTooLong p = false ∧
      fs1 = put fs p (.file "") := by
  unfold openTrunc at h
  rcases hpd : parentDir fs p with e | u
  · simp [hpd] at h
  · obtain ⟨h1, h2, h3⟩ := parentDir_ok fs p hpd
    simp only [hpd] at h
    refine ⟨?_, h1, h2, h3, ?_⟩
    · rintro rfl
      simp [nodeAt] at h
    · rcases hn : nodeAt fs p with _ | _ | d <;> simp [hn] at h <;> exact h.symm

/-- A successful `WriteFile` leaves the data at the path. -/
theorem WriteFile_ok (fs : FS) (p : PathName) (data : String)
    (h : (WriteFile p data fs).err = none) :
    p ≠ [] ∧ pathErr p = none ∧ Stat fs p.dropLast = .ok .dir ∧ lastTooLong p = false ∧
      (WriteFile p data fs).fs = put (put fs p (.file "")) p (.file data) ∧
      Stat (WriteFile p data fs).fs p = .ok (.file data) := by
  unfold WriteFile at h ⊢
  rcases ho : openTrunc p fs with e | fs1
  · simp [ho] at h
  · obtain ⟨hp, he, hd, hl, rfl⟩ := openTrunc_ok fs fs1 p ho
    refine ⟨hp, he, hd, hl, rfl, ?_⟩
    apply Stat_put_self _ _ _ hp he _ hl
    rw [Stat_put_other _ _ _ _ hp (dropLast_not_under p hp), hd]

theorem TempFile_ok (dir : PathName) (pre : String) (cands : List String) (fs fs1 : FS)
    (tmp : PathName) (h : TempFile dir pre cands fs = .ok (tmp, fs1)) :
    (∃ name, tmp = dir ++ [name]) ∧ pathErr tmp = none ∧ Stat fs dir = .ok .dir ∧
      lastTooLong tmp = false ∧ nodeAt fs tmp = none ∧ fs1 = put fs tmp (.file "") := by
  induction cands with
  | nil => simp [TempFile] at h
  | cons c rest ih =>
    unfold TempFile at h
    rcases hpd : parentDir fs (dir ++ [pre ++ c]) with e | u
    · simp [hpd] at h
    · simp only [hpd] at h
      rcases hn : nodeAt fs (dir ++ [pre ++ c]) with _ | m
      · simp only [hn, Except.ok.injEq, Prod.mk.injEq] at h
        obtain ⟨rfl, rfl⟩ := h
        obtain ⟨h1, h2, h3⟩ := parentDir_ok fs _ hpd
        simp only [List.dropLast_concat] at h2
        exact ⟨⟨_, rfl⟩, h1, h2, h3, hn, rfl⟩
      · simp only [hn] at h
        exact ih h

theorem Remove_ok (fs fs1 : FS) (p : PathName) (h : Remove p fs = .ok fs1) :
    p ≠ [] ∧ fs1 = erase fs p ∧ ∃ n, Stat fs p = .ok n := by
  unfold Remove at h
  rcases hs : Stat fs p with e | _ | d
  · simp [hs] at h
  · simp only [hs] at h
    by_cases hp : p = []
    · simp [hp] at h
    · by_cases hc : hasChild fs p = true
      · simp [hp, hc] at h
      · simp only [hp, hc, if_false] at h
        exact ⟨hp, (Except.ok.inj h).symm, _, rfl⟩
  · simp only [hs, Except.ok.injEq] at h
    refine ⟨?_, h.symm, _, rfl⟩
    rintro rfl
    simp [Stat_nil] at hs

theorem removeDeferred_cases (fs : FS) (p : PathName) :
    removeDeferred p fs = fs ∨ (p ≠ [] ∧ removeDeferred p fs = erase fs p) := by
  unfold removeDeferred
  rcases hr : Remove p fs with e | fs1
  · exact Or.inl rfl
  · obtain ⟨hp, rfl, _⟩ := Remove_ok fs fs1 p hr
    exact Or.inr ⟨hp, rfl⟩

/-- The replace path of `saveToFile`, when it reports no error, leaves the
new data in the document. -/
theorem replaceFile_ok (data : String) (file tmp : PathName) (fs1 : FS) (a : String)
    (htmp : tmp = file.dropLast ++ [a]) (hne : tmp ≠ file)
    (h : (replaceFile data file tmp fs1).err = none) :
    Stat (replaceFile data file tmp fs1).fs file = .ok (.file data) ∧ file ≠ [] := by
  unfold replaceFile at h ⊢
  have htn : tmp ≠ [] := by rw [htmp]; simp
  rcases hw : (WriteFile tmp data fs1).err with _ | e
  · obtain ⟨_, _, _, _, _, hst⟩ := WriteFile_ok fs1 tmp data hw
    simp only [hw] at h ⊢
    rcases hr : Remove file (WriteFile tmp data fs1).fs with e | fs4
    · simp [hr] at h
    · simp only [hr] at h ⊢
      obtain ⟨hfn, rfl, n0, hsf⟩ := Remove_ok _ fs4 file hr
      obtain ⟨hfe, _, hfl, _⟩ := Stat_ok_facts _ file n0 hfn hsf
      have hfile := List.dropLast_append_getLast hfn
      have hab : a ≠ file.getLast hfn := by
        intro hab
        apply hne
        rw [htmp, hab, hfile]
      have hnp1 : ¬ file <+: tmp := by
        rw [htmp]
        nth_rewrite 1 [← hfile]
        exact sibling_not_under _ _ _ (Ne.symm hab)
      have hst4 : Stat (erase (WriteFile tmp data fs1).fs file) tmp = .ok (.file data) := by
        rw [Stat_erase_other _ _ _ hfn hnp1, hst]
      unfold Rename at h ⊢
      simp only [hst4] at h ⊢
      rcases hpd : parentDir (erase (WriteFile tmp data fs1).fs file) file with e | u
      · simp [hpd] at h
      · simp only [hpd] at h ⊢
        obtain ⟨_, hd, _⟩ := parentDir_ok _ _ hpd
        have hfin : Stat (put (erase (erase (WriteFile tmp data fs1).fs file) tmp) file
            (.file data)) file = .ok (.file data) := by
          apply Stat_put_self _ _ _ hfn hfe _ hfl
          rw [Stat_erase_other _ _ _ htn, hd]
          intro hpre
          have h1 := hpre.length_le
          rw [htmp] at h1
          simp at h1
        rcases hn : nodeAt (erase (WriteFile tmp data fs1).fs file) file with _ | _ | d
        · simp only [hn]
          exact ⟨hfin, hfn⟩
        · simp [hn] at h
        · simp only [hn]
          exact ⟨hfin, hfn⟩
  · simp [hw] at h

/-- C1 (core): when `saveToFile` reports no error, the file resolves to a
regular file holding exactly the data. -/
theorem saveToFile_ok (cands : List String) (data : String) (file : PathName) (fs : FS)
    (h : (Filestore.saveToFile cands data file fs).err = none) :
    Stat (Filestore.saveToFile cands data file fs).fs file = .ok (.file data) := by
  unfold Filestore.saveToFile at h ⊢
  by_cases hs : Stat fs file = .error .ENOENT
  · simp only [hs] at h ⊢
    exact (WriteFile_ok fs file data h).2.2.2.2.2
  · rw [Stat_not_ENOENT_branch _ _ _ _ hs] at h ⊢
    rcases ht : TempFile file.dropLast "config.json.tmp" cands fs with e | ⟨tmp, fs1⟩
    · simp [ht] at h
    · simp only [ht] at h ⊢
      obtain ⟨⟨a, htmp⟩, hpe, hdir, hlong, hnone, rfl⟩ := TempFile_ok _ _ _ _ _ _ ht
      have hne : tmp ≠ file := by
        intro heq
        apply hs
        have hl : tooLong a = false := by
          rw [← lastTooLong_snoc file.dropLast, ← htmp]
          exact hlong
        rw [← heq, htmp, Stat_snoc _ _ _ (htmp ▸ hpe), hdir, ← htmp, hnone, hl]
        rfl
      obtain ⟨hst, hfn⟩ := replaceFile_ok data file tmp _ a htmp hne h
      have htn : tmp ≠ [] := by rw [htmp]; simp
      rcases removeDeferred_cases (replaceFile data file tmp (put fs tmp (.file ""))).fs tmp
        with hr | ⟨_, hr⟩
      · rw [hr]
        exact hst
      · rw [hr, Stat_erase_other _ _ _ htn, hst]
        have hfile := List.dropLast_append_getLast hfn
        rw [htmp]
        nth_rewrite 2 [← hfile]
        apply sibling_not_under
        intro hab
        apply hne
        rw [htmp, hab, hfile]

/-- C1 (amended): when `Save(h)` returns no error, from whatever file system
it started (with or without an earlier document for `h.Name`, in particular
after any earlier saves), and `encoding/json` decodes the document it made
from `h` back to `h`, then `Load(h.Name)` on the file system `Save` leaves
returns `h`. -/
theorem Save_then_Load {δ : Type} (s : Filestore) (j : JSON δ) (cands : List String)
    (h : Host δ) (fs fs1 : FS)
    (hj : ∀ data, j.MarshalIndent h = .ok data → j.Unmarshal data ⟨h.Name, j.zero⟩ = .ok h)
    (hsave : s.Save j cands h fs = (none, fs1)) :
    s.Load j h.Name fs1 = .ok h := by
  unfold Filestore.Save at hsave
  rcases hm : j.MarshalIndent h with m | data
  · simp [hm] at hsave
  · simp only [hm] at hsave
    rcases hmk : MkdirAll (s.hostPath h.Name) fs with ⟨_ | e, fs0⟩
    · simp only [hmk, Prod.mk.injEq, Option.map_eq_none'] at hsave
      obtain ⟨herr, rfl⟩ := hsave
      have hst := saveToFile_ok cands data _ fs0 herr
      have hdir := (Stat_snoc_ok _ _ _ _ hst).1
      unfold Filestore.Load
      rw [Stat_not_ENOENT_branch _ _ _ _ (by rw [hdir]; simp)]
      simp [Filestore.loadConfig, ReadFile, hst, hj data hm]
    · simp [hmk] at hsave

theorem Save_then_Load_witness :
    sampleStore.Load sampleJSON (⟨"m1", "virtualbox"⟩ : Host String).Name
        (sampleStore.Save sampleJSON ["1"] ⟨"m1", "virtualbox"⟩ sampleDisk).2 =
      .ok ⟨"m1", "virtualbox"⟩ :=
  Save_then_Load sampleStore sampleJSON ["1"] ⟨"m1", "virtualbox"⟩ sampleDisk _
    (fun data hd => by cases hd; rfl) (by decide)

/-- C1 (as stated) fails: a record whose string payload is the one byte 0xFF,
which is not valid UTF-8, is saved without error, and `Load` returns a
different record, with U+FFFD (bytes EF BF BD) in its place. -/
theorem Save_then_Load_invalid_utf8 :
    (sampleStore.Save coercingJSON [] ⟨"m1", [255]⟩ []).1 = none ∧
      sampleStore.Load coercingJSON "m1" (sampleStore.Save coercingJSON [] ⟨"m1", [255]⟩ []).2 =
        .ok ⟨"m1", [239, 191, 189]⟩ ∧
      (⟨"m1", [239, 191, 189]⟩ : Host (List Nat)) ≠ ⟨"m1", [255]⟩ := by
  decide

/-- C7: when `os.Stat` reports that `<root>/machines/<name>` does not exist,
`Load(name)` returns the host-does-not-exist error carrying the name (and no
record); in every other case a failure to read the document is returned as
that read error and a failure to decode it as that decode error, neither
being the host-does-not-exist error. -/
theorem Load_errors {δ : Type} (s : Filestore) (j : JSON δ) (name : String) (fs : FS) :
    (Stat fs (s.hostPath name) = .error .ENOENT →
      s.Load j name fs = .error (.ErrHostDoesNotExist name)) ∧
    (Stat fs (s.hostPath name) ≠ .error .ENOENT →
      (∀ e, ReadFile (s.hostPath name ++ ["config.json"]) fs = .error e →
        s.Load j name fs = .error (.io e)) ∧
      (∀ data m, ReadFile (s.hostPath name ++ ["config.json"]) fs = .ok data →
        j.Unmarshal data ⟨name, j.zero⟩ = .error m →
        s.Load j name fs = .error (.json m))) := by
  refine ⟨fun h => ?_, fun h => ⟨fun e he => ?_, fun data m hd hm => ?_⟩⟩
  · simp [Filestore.Load, h]
  · unfold Filestore.Load
    rw [Stat_not_ENOENT_branch _ _ _ _ h]
    simp [Filestore.loadConfig, he]
  · unfold Filestore.Load
    rw [Stat_not_ENOENT_branch _ _ _ _ h]
    simp [Filestore.loadConfig, hd, hm]

theorem Load_errors_witness :
    sampleStore.Load sampleJSON "m2" sampleDisk = .error (.ErrHostDoesNotExist "m2") ∧
      sampleStore.Load sampleJSON "m1" emptyHostDisk = .error (.io .ENOENT) ∧
      sampleStore.Load sampleJSON "m1" cutOffDisk = .error (.json "unexpected end of input") :=
  ⟨(Load_errors sampleStore sampleJSON "m2" sampleDisk).1 (by decide),
    ((Load_errors sampleStore sampleJSON "m1" emptyHostDisk).2 (by decide)).1 .ENOENT (by decide),
    ((Load_errors sampleStore sampleJSON "m1" cutOffDisk).2 (by decide)).2 "m1"
      "unexpected end of input" (by decide) (by decide)⟩

/-- C9: on every file system, the names `List()` returns are exactly the
names `n` for which `<root>/machines/<n>` is a directory and `n` does not
begin with "."; when `<root>/machines` does not exist the result is the
empty list and no error, and when it is a directory there is no error. -/
theorem List_names (s : Filestore) (fs : FS) :
    (∀ n, n ∈ (s.List fs).1 ↔
      (Stat fs (s.GetMachinesDir ++ [n]) = .ok .dir ∧ HasPrefix n "." = false)) ∧
    (Stat fs s.GetMachinesDir = .error .ENOENT → s.List fs = ([], none)) ∧
    (Stat fs s.GetMachinesDir = .ok .dir → (s.List fs).2 = none) := by
  refine ⟨fun n => ?_, fun h => ?_, fun h => ?_⟩
  · unfold Filestore.List ReadDir
    rcases hs : Stat fs s.GetMachinesDir with e | _ | d
    · have hno : Stat fs (s.GetMachinesDir ++ [n]) ≠ .ok .dir := by
        intro hc
        rw [(Stat_snoc_ok _ _ _ _ hc).1] at hs
        simp at hs
      by_cases he : IsNotExist e = true <;> simp [he, hno]
    · simp only [List.mem_map, List.mem_filter, Bool.and_eq_true, Bool.not_eq_true',
        List.mem_filterMap, mem_childNames]
      constructor
      · rintro ⟨f, ⟨⟨c, ⟨m, hm⟩, hc⟩, hdir, hpre⟩, rfl⟩
        rcases hst : Stat fs (s.GetMachinesDir ++ [c]) with e | k
        · simp [hst] at hc
        · simp only [hst, Option.some.injEq] at hc
          subst hc
          simp only [decide_eq_true_eq] at hdir
          subst hdir
          exact ⟨hst, hpre⟩
      · intro ⟨hst, hpre⟩
        obtain ⟨_, hn, _, _⟩ := Stat_snoc_ok _ _ _ _ hst
        have hent : entryAt fs (s.GetMachinesDir ++ [n]) = some .dir := by
          simpa [nodeAt] using hn
        exact ⟨⟨n, true⟩, ⟨⟨n, ⟨_, entryAt_some_mem _ _ _ hent⟩, by simp [hst]⟩, rfl, hpre⟩, rfl⟩
    · have hno : Stat fs (s.GetMachinesDir ++ [n]) ≠ .ok .dir := by
        intro hc
        rw [(Stat_snoc_ok _ _ _ _ hc).1] at hs
        simp at hs
      by_cases he : IsNotExist .ENOTDIR = true <;> simp [he, hno]
  · simp [Filestore.List, ReadDir, h, IsNotExist]
  · simp [Filestore.List, ReadDir, h]

theorem List_names_witness :
    "m1" ∈ (sampleStore.List mixedDisk).1 ∧ ".cache" ∉ (sampleStore.List mixedDisk).1 ∧
      "notes.txt" ∉ (sampleStore.List mixedDisk).1 ∧ sampleStore.List [] = ([], none) ∧
      (sampleStore.List mixedDisk).2 = none :=
  ⟨((List_names sampleStore mixedDisk).1 "m1").2 ⟨by decide, by decide⟩,
    fun h => absurd (((List_names sampleStore mixedDisk).1 ".cache").1 h).2 (by decide),
    fun h => absurd (((List_names sampleStore mixedDisk).1 "notes.txt").1 h).1 (by decide),
    (List_names sampleStore []).2.1 (by decide),
    (List_names sampleStore mixedDisk).2.2 (by decide)⟩

/-- C2: on a disk where the host `m1` has a document, `saveToFile` of a new
document returns no error, and the document as `os.Stat` finds it after each
file-system operation of the call is: the old one three times (temporary
file created, truncated, written), then no document at all (after
`os.Remove(file)`), then the new one twice (after `os.Rename` and after the
deferred remove). Between the remove and the rename there is no document. -/
theorem saveToFile_document_window :
    Stat sampleDisk sampleFile = .ok (.file "m1\nnone") ∧
      (Filestore.saveToFile ["1"] "m1\nvirtualbox" sampleFile sampleDisk).err = none ∧
      (Filestore.saveToFile ["1"] "m1\nvirtualbox" sampleFile sampleDisk).seen.map
          (fun fs => Stat fs sampleFile) =
        [.ok (.file "m1\nnone"), .ok (.file "m1\nnone"), .ok (.file "m1\nnone"),
          .error .ENOENT, .ok (.file "m1\nvirtualbox"), .ok (.file "m1\nvirtualbox")] := by
  decide

theorem noFileOnPath_iff (fs : FS) (p : PathName) :
    noFileOnPath fs p = true ↔ ∀ q, q <+: p → ∀ d, nodeAt fs q ≠ some (.file d) := by
  unfold noFileOnPath
  rw [List.all_eq_true]
  constructor
  · intro h q hq d hd
    have := h q ((List.mem_inits q p).2 hq)
    simp [hd] at this
  · intro h q hq
    have hq1 := (List.mem_inits q p).1 hq
    rcases hn : nodeAt fs q with _ | _ | d
    · rfl
    · rfl
    · exact absurd hn (h q hq1 d)

theorem tooLong_of_all (p : PathName) (c : String) (h : p.all (fun c => !tooLong c) = true)
    (hc : c ∈ p) : tooLong c = false := by
  rw [List.all_eq_true] at h
  simpa using h c hc

/-- On a path the file system accepts and with no regular file in the way,
every prefix is a directory or does not exist. -/
theorem Stat_dir_or_ENOENT (fs : FS) (p : PathName) (hp : acceptable p)
    (hnf : ∀ q, q <+: p → ∀ d, nodeAt fs q ≠ some (.file d)) (q : PathName) (hq : q <+: p) :
    Stat fs q = .ok .dir ∨ Stat fs q = .error .ENOENT := by
  induction q using List.reverseRecOn with
  | nil => exact Or.inl (Stat_nil fs)
  | append_singleton q c ih =>
    have hq1 : q <+: p := (List.prefix_append q [c]).trans hq
    have hc : c ∈ p := hq.subset (by simp)
    rw [Stat_snoc _ _ _ (pathErr_below _ _ hq hp.1), tooLong_of_all p c hp.2 hc]
    rcases ih hq1 with h | h
    · rw [h]
      rcases hn : nodeAt fs (q ++ [c]) with _ | _ | d
      · exact Or.inr rfl
      · exact Or.inl rfl
      · exact absurd hn (hnf _ hq d)
    · rw [h]
      exact Or.inr rfl

/-- An absent host on an accepted path: `os.Stat` reports that the path
does not exist. -/
theorem absent_Stat (fs : FS) (p : PathName) (hp : acceptable p) (hne : p ≠ [])
    (hnone : nodeAt fs p = none) (hnf : noFileOnPath fs p = true) :
    Stat fs p = .error .ENOENT := by
  rcases Stat_dir_or_ENOENT fs p hp ((noFileOnPath_iff fs p).1 hnf) p (List.prefix_refl p)
    with h | h
  · have := (Stat_ok_facts fs p _ hne h).2.2.2
    rw [hnone] at this
    simp at this
  · exact h

/-- Whatever `MkdirAll` returns, it leaves every path that is not a prefix
of its argument as it was, and it makes no regular file. -/
theorem mkdirFrom_frame (fs : FS) (cur : PathName) (rest : List String) (q : PathName) :
    (¬ q <+: cur ++ rest → nodeAt (mkdirFrom fs cur rest).2 q = nodeAt fs q) ∧
      (∀ d, nodeAt (mkdirFrom fs cur rest).2 q = some (.file d) →
        nodeAt fs q = some (.file d)) := by
  induction rest generalizing fs cur with
  | nil => simp [mkdirFrom]
  | cons c rest ih =>
    unfold mkdirFrom
    have happ : cur ++ c :: rest = (cur ++ [c]) ++ rest := by simp
    rcases hpd : parentDir fs (cur ++ [c]) with e | u
    · simp
    · simp only
      rcases hn : nodeAt fs (cur ++ [c]) with _ | _ | d
      · simp only
        obtain ⟨h1, h2⟩ := ih (put fs (cur ++ [c]) .dir) (cur ++ [c])
        have hput : nodeAt (put fs (cur ++ [c]) .dir) q =
            if q = cur ++ [c] then some .dir else nodeAt fs q :=
          nodeAt_put _ _ _ _ (by simp)
        constructor
        · intro hq
          rw [happ] at hq
          rw [h1 hq, hput, if_neg]
          intro hqc
          apply hq
          rw [hqc]
          exact List.prefix_append _ _
        · intro d hd
          have := h2 d hd
          rw [hput] at this
          by_cases hqc : q = cur ++ [c]
          · simp [hqc] at this
          · simpa [hqc] using this
      · simp only
        rw [happ]
        exact ih fs (cur ++ [c])
      · simp

theorem WriteFile_frame (fs : FS) (p q : PathName) (data : String) (hq : q ≠ p) :
    nodeAt (WriteFile p data fs).fs q = nodeAt fs q := by
  unfold WriteFile
  rcases ho : openTrunc p fs with e | fs1
  · rfl
  · obtain ⟨hp, _, _, _, rfl⟩ := openTrunc_ok fs fs1 p ho
    simp [nodeAt_put _ _ _ _ hp, hq]

theorem not_under_ne (p q : PathName) (h : ¬ p <+: q) : q ≠ p ∧ p ≠ [] := by
  constructor
  · rintro rfl
    exact h (List.prefix_refl _)
  · rintro rfl
    exact h (List.nil_prefix)

theorem entryAt_map_move (l : FS) (old new q : PathName) (h1 : ¬ old <+: q)
    (h2 : ¬ new <+: q) :
    entryAt (l.map (fun e => if old <+: e.1 then (new ++ e.1.drop old.length, e.2) else e)) q =
      entryAt l q := by
  induction l with
  | nil => rfl
  | cons e rest ih =>
    obtain ⟨a, n⟩ := e
    rw [List.map_cons]
    by_cases ha : old <+: a
    · have hne1 : new ++ a.drop old.length ≠ q := fun hq => h2 (hq ▸ List.prefix_append _ _)
      have hne2 : a ≠ q := fun hq => h1 (hq ▸ ha)
      rw [if_pos ha]
      unfold entryAt
      rw [if_neg hne1, if_neg hne2, ih]
    · rw [if_neg ha]
      unfold entryAt
      rw [ih]

/-- A successful `Rename` leaves every path outside its two arguments as it
was. -/
theorem Rename_frame (fs fs1 : FS) (old new q : PathName) (h : Rename old new fs = .ok fs1)
    (h1 : ¬ old <+: q) (h2 : ¬ new <+: q) : nodeAt fs1 q = nodeAt fs q := by
  obtain ⟨hqo, hon⟩ := not_under_ne old q h1
  obtain ⟨hqn, hnn⟩ := not_under_ne new q h2
  have hfile : ∀ d, nodeAt (put (erase fs old) new (.file d)) q = nodeAt fs q := by
    intro d
    rw [nodeAt_put _ _ _ _ hnn, if_neg hqn, nodeAt_erase _ _ _ hon, if_neg hqo]
  have hmove : nodeAt ((erase fs new).map
      (fun e => if old <+: e.1 then (new ++ e.1.drop old.length, e.2) else e)) q =
      nodeAt fs q := by
    have := nodeAt_erase fs new q hnn
    rw [if_neg hqn] at this
    rw [← this]
    unfold nodeAt
    rw [entryAt_map_move _ _ _ _ h1 h2]
  unfold Rename at h
  rcases hs : Stat fs old with e | _ | d
  · simp [hs] at h
  · simp only [hs, hon, if_false] at h
    by_cases heq : old = new
    · simp only [heq, if_true, Except.ok.injEq] at h
      rw [← h]
    · simp only [heq, if_false] at h
      by_cases hpre : old <+: new
      · simp [hpre] at h
      · simp only [hpre, if_false] at h
        rcases hpd : parentDir fs new with e | u
        · simp [hpd] at h
        · simp only [hpd] at h
          rcases hn : nodeAt fs new with _ | _ | d
          · simp only [hn, Except.ok.injEq] at h
            rw [← h]
            exact hmove
          · simp only [hn] at h
            by_cases hc : hasChild fs new = true
            · simp [hc] at h
            · have hc1 : hasChild fs new = false := by simpa using hc
              simp only [hc1, Bool.false_eq_true, if_false, Except.ok.injEq] at h
              rw [← h]
              exact hmove
          · simp [hn] at h
  · simp only [hs] at h
    rcases hpd : parentDir fs new with e | u
    · simp [hpd] at h
    · simp only [hpd] at h
      rcases hn : nodeAt fs new with _ | _ | d1
      · simp only [hn, Except.ok.injEq] at h
        rw [← h]
        exact hfile d
      · simp [hn] at h
      · simp only [hn, Except.ok.injEq] at h
        rw [← h]
        exact hfile d

/-- The replace path of `saveToFile` touches only the document and the
temporary file, whatever it returns. -/
theorem replaceFile_frame (data : String) (file tmp : PathName) (fs1 : FS) (q : PathName)
    (hq1 : ¬ file <+: q) (hq2 : ¬ tmp <+: q) :
    nodeAt (replaceFile data file tmp fs1).fs q = nodeAt fs1 q := by
  unfold replaceFile
  have hwf := WriteFile_frame fs1 tmp q data (not_under_ne tmp q hq2).1
  rcases hw : (WriteFile tmp data fs1).err with _ | e
  · simp only
    rcases hr : Remove file (WriteFile tmp data fs1).fs with e | fs4
    · exact hwf
    · simp only
      obtain ⟨hfn, rfl, _⟩ := Remove_ok _ fs4 file hr
      have h4 : nodeAt (erase (WriteFile tmp data fs1).fs file) q = nodeAt fs1 q := by
        rw [nodeAt_erase _ _ _ hfn, if_neg (not_under_ne file q hq1).1, hwf]
      rcases hrn : Rename tmp file (erase (WriteFile tmp data fs1).fs file) with e | fs5
      · exact h4
      · simp only
        rw [Rename_frame _ _ _ _ _ hrn hq2 hq1, h4]
  · exact hwf

/-- Whatever `saveToFile` returns, it touches only the file and the
entries next to it. -/
theorem saveToFile_frame (cands : List String) (data : String) (file : PathName) (fs : FS)
    (q : PathName) (hq1 : ¬ file <+: q) (hq2 : ∀ a, ¬ (file.dropLast ++ [a]) <+: q) :
    nodeAt (Filestore.saveToFile cands data file fs).fs q = nodeAt fs q := by
  unfold Filestore.saveToFile
  by_cases hs : Stat fs file = .error .ENOENT
  · simp only [hs]
    exact WriteFile_frame fs file q data (not_under_ne file q hq1).1
  · rw [Stat_not_ENOENT_branch _ _ _ _ hs]
    rcases ht : TempFile file.dropLast "config.json.tmp" cands fs with e | ⟨tmp, fs1⟩
    · rfl
    · simp only
      obtain ⟨⟨a, htmp⟩, _, _, _, _, rfl⟩ := TempFile_ok _ _ _ _ _ _ ht
      have hqt : ¬ tmp <+: q := htmp ▸ hq2 a
      obtain ⟨hqne, htn⟩ := not_under_ne tmp q hqt
      have h1 := replaceFile_frame data file tmp (put fs tmp (.file "")) q hq1 hqt
      rw [nodeAt_put _ _ _ _ htn, if_neg hqne] at h1
      rcases removeDeferred_cases (replaceFile data file tmp (put fs tmp (.file ""))).fs tmp
        with hr | ⟨_, hr⟩
      · rw [hr, h1]
      · rw [hr, nodeAt_erase _ _ _ htn, if_neg hqne, h1]

/-- An absent host stays absent on a file system that has the same node at
its path and no regular file on the way that was not there before. -/
theorem absent_of_frame (s : Filestore) (name : String) (fs fs1 : FS)
    (h1 : nodeAt fs1 (s.hostPath name) = nodeAt fs (s.hostPath name))
    (h2 : ∀ q, q <+: s.hostPath name → ∀ d, nodeAt fs1 q = some (.file d) →
      nodeAt fs q = some (.file d))
    (habs : s.hostAbsent name fs) : s.hostAbsent name fs1 := by
  obtain ⟨ha, hb⟩ := habs
  refine ⟨h1.trans ha, (noFileOnPath_iff _ _).2 ?_⟩
  intro q hq d hd
  exact (noFileOnPath_iff _ _).1 hb q hq d (h2 q hq d hd)

theorem longer_not_under (q p x : PathName) (hq : q <+: p) (hx : p.length < x.length) :
    ¬ x <+: q := by
  intro hpre
  have h1 := hpre.length_le
  have h2 := hq.length_le
  omega

theorem Save_preserves_absent {δ : Type} (s : Filestore) (j : JSON δ) (cands : List String)
    (h : Host δ) (name : String) (fs : FS) (hv : validName name) (hv2 : validName h.Name)
    (hne : h.Name ≠ name) (habs : s.hostAbsent name fs) :
    s.hostAbsent name (s.Save j cands h fs).2 := by
  have hmk1 := fun q => (mkdirFrom_frame fs [] (s.GetMachinesDir ++ [h.Name]) q).1
  have hmk2 := fun q => (mkdirFrom_frame fs [] (s.GetMachinesDir ++ [h.Name]) q).2
  have hsib : ¬ (s.GetMachinesDir ++ [name]) <+: [] ++ (s.GetMachinesDir ++ [h.Name]) := by
    rw [List.nil_append]
    exact sibling_not_under _ _ _ (Ne.symm hne)
  have hdir : s.hostAbsent name (mkdirFrom fs [] (s.GetMachinesDir ++ [h.Name])).2 := by
    apply absent_of_frame s name fs _ _ _ habs
    · rw [hostPath_valid s name hv]
      exact hmk1 _ hsib
    · intro q _ d hd
      exact hmk2 q d hd
  unfold Filestore.Save
  rcases hm : j.MarshalIndent h with m | data
  · exact habs
  · simp only
    rw [hostPath_valid s h.Name hv2]
    unfold MkdirAll
    rcases hmk : mkdirFrom fs [] (s.GetMachinesDir ++ [h.Name]) with ⟨_ | e, fs1⟩
    · simp only
      rw [hmk] at hdir
      have hframe : ∀ q, q <+: s.hostPath name →
          nodeAt (Filestore.saveToFile cands data
            (s.GetMachinesDir ++ [h.Name] ++ ["config.json"]) fs1).fs q = nodeAt fs1 q := by
        intro q hq
        rw [hostPath_valid s name hv] at hq
        apply saveToFile_frame
        · exact longer_not_under q _ _ hq (by simp)
        · intro a
          exact longer_not_under q _ _ hq (by simp)
      apply absent_of_frame s name fs1 _ (hframe _ (List.prefix_refl _)) _ hdir
      intro q hq d hd
      rw [hframe q hq] at hd
      exact hd
    · simp only
      rw [hmk] at hdir
      exact hdir

theorem Remove_preserves_absent (s : Filestore) (name other : String) (fs : FS)
    (hv2 : validName other) (habs : s.hostAbsent name fs) :
    s.hostAbsent name (s.Remove other fs).2 := by
  unfold Filestore.Remove RemoveAll
  rw [hostPath_valid s other hv2]
  have hne : s.GetMachinesDir ++ [other] ≠ [] := by simp
  simp only [hne, if_false]
  rcases hs : Stat fs (s.GetMachinesDir ++ [other]) with e | n
  · by_cases he : IsNotExist e = true
    · simpa [he] using habs
    · simpa [he] using habs
  · simp only
    obtain ⟨ha, hb⟩ := habs
    refine ⟨?_, (noFileOnPath_iff _ _).2 ?_⟩
    · rw [nodeAt_removeAll _ _ _ hne, ha]
      simp
    · intro q hq d hd
      rw [nodeAt_removeAll _ _ _ hne] at hd
      by_cases hu : s.GetMachinesDir ++ [other] <+: q
      · simp [hu] at hd
      · rw [if_neg hu] at hd
        exact (noFileOnPath_iff _ _).1 hb q hq d hd

theorem runOps_preserves_absent {δ : Type} (s : Filestore) (j : JSON δ) (name : String)
    (hv : validName name) (ops : List (StoreOp δ)) (fs : FS)
    (hops : ∀ op ∈ ops, validName op.name ∧ op.name ≠ name) (habs : s.hostAbsent name fs) :
    s.hostAbsent name (runOps s j ops fs) := by
  induction ops generalizing fs with
  | nil => exact habs
  | cons op rest ih =>
    unfold runOps
    simp only [List.foldl_cons]
    apply ih _ (fun o ho => hops o (List.mem_cons_of_mem _ ho))
    obtain ⟨hvo, hno⟩ := hops op (List.mem_cons_self _ _)
    cases op with
    | save cands host => exact Save_preserves_absent s j cands host name fs hv hvo hno habs
    | remove other => exact Remove_preserves_absent s name other fs hvo habs

/-- C8 (amended): for a host name that is one path component and whose
path `<root>/machines/<name>` the file system accepts, (1) `Exists(name)` is
false, without error, on every file system reached from one where the host
is absent by saves and removes of other hosts whose names are one path
component, that is, as long as no save for that name has happened; (2) it
is true right after a `Save` of a record with that name that returned no
error; (3) whenever `Exists(name)` reports no error (the host is there, or
it is absent), `Remove(name)` returns no error and `Exists(name)` is false
right after it. -/
theorem Exists_lifecycle {δ : Type} (s : Filestore) (j : JSON δ) (name : String)
    (hv : validName name) (hp : acceptable (s.hostPath name)) :
    (∀ (fs0 : FS) (ops : List (StoreOp δ)), s.hostAbsent name fs0 →
      (∀ op ∈ ops, validName op.name ∧ op.name ≠ name) →
      s.Exists name (runOps s j ops fs0) = (false, none)) ∧
    (∀ (fs fs1 : FS) (cands : List String) (h : Host δ), h.Name = name →
      s.Save j cands h fs = (none, fs1) → s.Exists name fs1 = (true, none)) ∧
    (∀ fs : FS, (s.Exists name fs).2 = none →
      (s.Remove name fs).1 = none ∧ s.Exists name (s.Remove name fs).2 = (false, none)) := by
  have hpath := hostPath_valid s name hv
  have hne : s.GetMachinesDir ++ [name] ≠ [] := by simp
  refine ⟨fun fs0 ops h0 hops => ?_, fun fs fs1 cands h hn hsave => ?_, fun fs hex => ?_⟩
  · obtain ⟨ha, hb⟩ := runOps_preserves_absent s j name hv ops fs0 hops h0
    have := absent_Stat _ (s.hostPath name) hp (hpath ▸ hne) ha hb
    simp [Filestore.Exists, this, IsNotExist]
  · subst hn
    unfold Filestore.Save at hsave
    rcases hm : j.MarshalIndent h with m | data
    · simp [hm] at hsave
    · simp only [hm] at hsave
      rcases hmk : MkdirAll (s.hostPath h.Name) fs with ⟨_ | e, fs2⟩
      · simp only [hmk, Prod.mk.injEq, Option.map_eq_none'] at hsave
        obtain ⟨herr, rfl⟩ := hsave
        have hst := saveToFile_ok cands data _ fs2 herr
        have hdir := (Stat_snoc_ok _ _ _ _ hst).1
        simp [Filestore.Exists, hdir]
      · simp [hmk] at hsave
  · unfold Filestore.Remove RemoveAll
    unfold Filestore.Exists at hex ⊢
    rw [hpath] at hex ⊢
    simp only [hne, if_false]
    rcases hs : Stat fs (s.GetMachinesDir ++ [name]) with e | n
    · rw [hs] at hex
      by_cases he : IsNotExist e = true
      · simp [he, hs]
      · simp [he] at hex
    · simp only [Option.map_none', true_and]
      obtain ⟨hd, _, hl, hpe⟩ := Stat_snoc_ok _ _ _ _ hs
      have hsm : Stat (fs.filter (fun e => ¬ s.GetMachinesDir ++ [name] <+: e.1))
          s.GetMachinesDir = Stat fs s.GetMachinesDir := by
        apply Stat_congr
        intro q hq
        rw [nodeAt_removeAll _ _ _ hne, if_neg]
        exact longer_not_under q _ _ hq (by simp)
      rw [Stat_snoc _ _ _ hpe, hsm, hd, hl, nodeAt_removeAll _ _ _ hne]
      simp [IsNotExist]

theorem Exists_lifecycle_witness :
    (validName "m1" ∧ acceptable (sampleStore.hostPath "m1")) ∧
      sampleStore.Exists "m1"
          (runOps sampleStore sampleJSON [.save ["1"] ⟨"m2", "none"⟩, .remove "m3"] []) =
        (false, none) ∧
      sampleStore.Exists "m1" sampleDisk = (true, none) ∧
      (sampleStore.Remove "m1" sampleDisk).1 = none ∧
      sampleStore.Exists "m1" (sampleStore.Remove "m1" sampleDisk).2 = (false, none) :=
  ⟨⟨by decide, by decide⟩,
    (Exists_lifecycle sampleStore sampleJSON "m1" (by decide) (by decide)).1 []
      [.save ["1"] ⟨"m2", "none"⟩, .remove "m3"] (by decide) (by decide),
    (Exists_lifecycle sampleStore sampleJSON "m1" (by decide) (by decide)).2.1 [] sampleDisk []
      ⟨"m1", "none"⟩ rfl (by decide),
    (Exists_lifecycle sampleStore sampleJSON "m1" (by decide) (by decide)).2.2 sampleDisk
      (by decide)⟩

set_option maxRecDepth 100000 in
/-- C8 (as stated) fails for host names that are not one accepted path
component: after the only save, of a record named `a/b`, `Exists("a")` is
true although no record named `a` was saved; after the only save, of a
record named `m1`, `Exists("")` is true; and for a name of 256 bytes
`Exists` returns false together with the error `ENAMETOOLONG`, not nil. -/
theorem Exists_true_without_save :
    sampleStore.Exists "a" (runOps sampleStore sampleJSON [.save [] ⟨"a/b", "none"⟩] []) =
        (true, none) ∧
      sampleStore.Exists "" (runOps sampleStore sampleJSON [.save [] ⟨"m1", "none"⟩] []) =
        (true, none) ∧
      sampleStore.Exists longName sampleDisk = (false, some (.io .ENAMETOOLONG)) := by
  decide

end persist
